import Mathlib

/-!
# ossutil: configuration helper and probe validation

A shallow embedding of `lib/config_helper.go` and of the validation rules of the probe
command.

Conventions of the embedding.

* A Go string is a Lean `String`: the sequence of runes a Go `for range` loop decodes
  from it.  `len(s)` is `String.utf8ByteSize`.
* A Go map is an association list.  A `for k, v := range m` loop visits the entries in an
  unspecified order, so a statement about such a loop quantifies over every permutation of
  the list.
* Constants, tables and functions that `config_helper.go` uses but does not declare
  (`OptionLanguage`, ..., `DefaultConfigFile`, `OptionMap`, `OptionTypeInt64`,
  `OptionTypeAlternative`, `FindPosCaseInsen`) are parameters, collected in `Decls`.
* What a call reads from the process and the file system (`user.Current()`,
  `os.PathSeparator`, `configparser.Read`) is a parameter too, collected in `Env`.
* A call that panics has the outcome `Outcome.panic`.
-/

namespace Ossutil

/-! ## Go standard library: `unicode`, `strings` -/

/-- Runes of a string, as numbers. -/
def runes (s : String) : List Nat := s.data.map Char.toNat

/-- The function `unicode.SimpleFold` on the runes whose fold orbit meets ASCII: the
letters (orbit of size two), except `K k U+212A` and `S s U+017F` (orbits of size three),
and the other ASCII runes (fixed).  Every other rune is kept fixed here; no orbit that
starts at an ASCII rune reaches one of them. -/
def SimpleFold (r : Nat) : Nat :=
  if r = 0x4B then 0x6B
  else if r = 0x6B then 0x212A
  else if r = 0x212A then 0x4B
  else if r = 0x53 then 0x73
  else if r = 0x73 then 0x17F
  else if r = 0x17F then 0x53
  else if 0x41 ≤ r ∧ r ≤ 0x5A then r + 32
  else if 0x61 ≤ r ∧ r ≤ 0x7A then r - 32
  else r

/-- The loop `for r != sr && r < tr { r = unicode.SimpleFold(r) }` of `strings.EqualFold`,
run for at most `fuel` iterations. -/
def foldLoop (sr tr : Nat) : Nat → Nat → Nat
  | 0, r => r
  | fuel + 1, r => if r ≠ sr ∧ r < tr then foldLoop sr tr fuel (SimpleFold r) else r

/-- One iteration of the rune loop of `strings.EqualFold`: are the runes `a` and `b` equal
under simple case folding. -/
def runeEqualFold (a b : Nat) : Bool :=
  if a = b then true
  else
    let sr := min a b
    let tr := max a b
    if tr < 0x80 then decide (0x41 ≤ sr ∧ sr ≤ 0x5A ∧ tr = sr + 0x20)
    else decide (foldLoop sr tr 3 (SimpleFold sr) = tr)

/-- The rune loop of `strings.EqualFold`: both strings are consumed rune by rune, and both
have to be exhausted together. -/
def equalFoldRunes : List Nat → List Nat → Bool
  | [], [] => true
  | a :: s, b :: t => runeEqualFold a b && equalFoldRunes s t
  | _, _ => false

/-- The function `strings.EqualFold(s, t)`. -/
def EqualFold (s t : String) : Bool := equalFoldRunes (runes s) (runes t)

/-- The representative of the fold orbit of a rune: the lower-case letter for a letter,
`k` for the Kelvin sign and `s` for the long s. -/
def canon (r : Nat) : Nat :=
  if r = 0x212A then 0x6B
  else if r = 0x17F then 0x73
  else if 0x41 ≤ r ∧ r ≤ 0x5A then r + 0x20
  else r

/-- The fold key of a string: the orbit representatives of its runes. -/
def foldKey (s : String) : List Nat := (runes s).map canon

/-- The function `unicode.ToLower` on ASCII runes; other runes are kept. -/
def lowerASCII (r : Nat) : Nat := if 0x41 ≤ r ∧ r ≤ 0x5A then r + 0x20 else r

/-- Two strings that differ in the case of ASCII letters only. -/
def sameUpToCase (s t : String) : Prop := (runes s).map lowerASCII = (runes t).map lowerASCII

/-- The predicate `unicode.IsSpace`. -/
def isSpace (c : Char) : Bool :=
  let r := c.toNat
  (0x09 ≤ r && r ≤ 0x0D) || r == 0x20 || r == 0x85 || r == 0xA0 || r == 0x1680 ||
  (0x2000 ≤ r && r ≤ 0x200A) || r == 0x2028 || r == 0x2029 || r == 0x202F ||
  r == 0x205F || r == 0x3000

/-- The function `strings.TrimSpace`: leading and trailing white space removed. -/
def TrimSpace (s : String) : String :=
  String.mk ((s.data.dropWhile isSpace).reverse.dropWhile isSpace).reverse

/-- The function `strings.HasPrefix` on rune lists. -/
def hasPrefixRunes : List Char → List Char → Bool
  | _, [] => true
  | [], _ :: _ => false
  | c :: s, d :: p => c == d && hasPrefixRunes s p

/-- The function `strings.HasPrefix`. -/
def HasPrefix (s p : String) : Bool := hasPrefixRunes s.data p.data

/-- The function `strings.Replace(s, old, new, 1)` on rune lists, for a non-empty `old`:
the first occurrence of `old` is replaced. -/
def replaceFirstRunes (old new : List Char) : List Char → List Char
  | [] => []
  | c :: s =>
    if hasPrefixRunes (c :: s) old then new ++ (c :: s).drop old.length
    else c :: replaceFirstRunes old new s

/-- The function `strings.Replace(s, old, new, 1)`; with an empty `old` Go inserts `new`
in front of the string. -/
def Replace1 (s old new : String) : String :=
  if old.data = [] then String.mk (new.data ++ s.data)
  else String.mk (replaceFirstRunes old.data new.data s.data)

/-- The function `strings.Split(s, sep)` on rune lists for a separator of one rune:
`cur` holds the reversed runes of the piece being read. -/
def splitRunes (sep : Char) : List Char → List Char → List String
  | cur, [] => [String.mk cur.reverse]
  | cur, c :: s =>
    if c = sep then String.mk cur.reverse :: splitRunes sep [] s
    else splitRunes sep (c :: cur) s

/-- The call `strings.Split(s, "/")`. -/
def SplitSlash (s : String) : List String := splitRunes '/' [] s.data

/-! ## Go standard library: `strconv` -/

/-- The two errors of `strconv`: `ErrSyntax` and `ErrRange`. -/
inductive NumError where
  | ErrSyntax
  | ErrRange
  deriving DecidableEq, Repr

/-- The constant `maxUint64`. -/
def maxUint64 : Nat := 2 ^ 64 - 1

/-- The digit loop of `strconv.ParseUint(s, 10, 64)`, `n` the `uint64` accumulator: the
value and the error returned. -/
def parseUintLoop : List Char → Nat → Nat × Option NumError
  | [], n => (n, none)
  | c :: cs, n =>
    if 0x30 ≤ c.toNat ∧ c.toNat ≤ 0x39 then
      if n ≥ maxUint64 / 10 + 1 then (maxUint64, some NumError.ErrRange)
      else
        let n1 := (n * 10 + (c.toNat - 0x30)) % 2 ^ 64
        if n1 < n * 10 ∨ n1 > maxUint64 then (maxUint64, some NumError.ErrRange)
        else parseUintLoop cs n1
    else (0, some NumError.ErrSyntax)

/-- The function `strconv.ParseUint(s, 10, 64)` on the runes of `s`. -/
def ParseUint (s : List Char) : Nat × Option NumError :=
  match s with
  | [] => (0, some NumError.ErrSyntax)
  | _ :: _ => parseUintLoop s 0

/-- The part of `strconv.ParseInt(s, 10, 64)` after the sign is picked off: `neg` tells
whether the sign is `-`, `rest` is what follows the sign. -/
def parseIntSigned (neg : Bool) (rest : List Char) : Int × Option NumError :=
  let r := ParseUint rest
  if r.2 = some NumError.ErrSyntax then (0, r.2)
  else if neg = false ∧ r.1 ≥ 2 ^ 63 then (2 ^ 63 - 1, some NumError.ErrRange)
  else if neg = true ∧ r.1 > 2 ^ 63 then (-(2 ^ 63), some NumError.ErrRange)
  else (if neg then -(r.1 : Int) else (r.1 : Int), none)

/-- The function `strconv.ParseInt(s, 10, 64)`: the value and the error returned. -/
def ParseInt (s : String) : Int × Option NumError :=
  match s.data with
  | [] => (0, some NumError.ErrSyntax)
  | c :: cs => parseIntSigned (c = '-') (if c = '+' ∨ c = '-' then cs else c :: cs)

/-! ## Go maps -/

/-- The assignment `m[k] = v`. -/
def mapSet {β : Type} : List (String × β) → String → β → List (String × β)
  | [], k, v => [(k, v)]
  | (k', v') :: rest, k, v =>
    if k' = k then (k, v) :: rest else (k', v') :: mapSet rest k v

/-- The lookup `m[k]`, `none` for an absent key. -/
def mapGet {β : Type} : List (String × β) → String → Option β
  | [], _ => none
  | (k', v') :: rest, k => if k' = k then some v' else mapGet rest k

/-- The outcome of a call that may panic. -/
inductive Outcome (α : Type) where
  | ret (a : α)
  | panic
  deriving DecidableEq

/-! ## The library `configparser` -/

/-- A section of a parsed file: its name and its options, a Go map. -/
structure Section where
  fqn : String
  options : List (String × String)
  deriving DecidableEq

/-- A parsed file: the list of its sections. -/
abbrev Configuration := List Section

/-- The method `Configuration.Section`: the first section of that name, or an error. -/
def Configuration.Section (config : Configuration) (fqn : String) : Except String Section :=
  match config.find? (fun s => s.fqn = fqn) with
  | some s => Except.ok s
  | none => Except.error ("Unable to find " ++ fqn)

/-- The type `user.User`, with the field that is read. -/
structure User where
  HomeDir : String
  deriving DecidableEq

/-- What the process reads from its surroundings: the answer of `user.Current()`, which is
`none` when the call gives an error and a nil user, the constant `os.PathSeparator`, and
`configparser.Read`, which gives for a path the parsed file or an error. -/
structure Env where
  Current : Option User
  PathSeparator : Char
  Read : String → Except String Configuration

/-! ## Declarations used by `config_helper.go` and made elsewhere in the package -/

/-- An entry of `OptionMap`, with the two fields `checkConfig` reads. -/
structure Option_ where
  optionType : Nat
  minVal : String
  deriving DecidableEq

/-- The constants and tables of package `lib` that `config_helper.go` refers to. -/
structure Decls where
  OptionLanguage : String
  OptionEndpoint : String
  OptionAccessKeyID : String
  OptionAccessKeySecret : String
  OptionSTSToken : String
  OptionOutputDir : String
  DefaultConfigFile : String
  OptionTypeInt64 : Nat
  OptionTypeAlternative : Nat
  OptionMap : String → Option Option_
  FindPosCaseInsen : String → List String → Int

/-! ## `config_helper.go` -/

def CREDSection : String := "Credentials"

def BucketEndpointSection : String := "Bucket-Endpoint"

def BucketCnameSection : String := "Bucket-Cname"

def AkServiceSection : String := "AkService"

structure configOption where
  showNames : List String
  cfInteractive : Bool
  reveal : Bool
  helpChinese : String
  helpEnglish : String

/-- The map `CredOptionMap`, its entries in the order of the map literal. -/
def CredOptionMap (D : Decls) : List (String × configOption) :=
  [ (D.OptionLanguage, ⟨["language", "Language"], false, true, "", ""⟩),
    (D.OptionEndpoint, ⟨["endpoint", "host"], true, true, "", ""⟩),
    (D.OptionAccessKeyID,
      ⟨["accessKeyID", "accessKeyId", "AccessKeyID", "AccessKeyId", "access_key_id",
        "access_id", "accessid", "access-key-id", "access-id"], true, false, "", ""⟩),
    (D.OptionAccessKeySecret,
      ⟨["accessKeySecret", "AccessKeySecret", "access_key_secret", "access_key",
        "accesskey", "access-key-secret", "access-key"], true, false, "", ""⟩),
    (D.OptionSTSToken,
      ⟨["stsToken", "ststoken", "STSToken", "sts_token", "sts-token"],
        true, false, "", ""⟩),
    (D.OptionOutputDir,
      ⟨["outputDir", "output-dir", "output_dir", "output_directory"], false, true,
        "ossutil生成的文件的输出目录, ",
        "the directory to store files generated by ossutil, "⟩) ]

/-- The inner loop of `getOptionNameByStr`: does some spelling of the list fold-equal
`name`. -/
def matchShowNames (name : String) : List String → Bool
  | [] => false
  | val :: rest => if EqualFold name val then true else matchShowNames name rest

/-- The function `getOptionNameByStr`, the entries of `CredOptionMap` visited in the
order `entries`. -/
def getOptionNameByStrIn (name : String) : List (String × configOption) → String × Bool
  | [] => ("", false)
  | (optionName, option) :: rest =>
    if matchShowNames name option.showNames then (optionName, true)
    else getOptionNameByStrIn name rest

/-- The function `getOptionNameByStr`, the map visited in the order of the literal; by
`getOptionNameByStr_any_order` every other visiting order gives the same result. -/
def getOptionNameByStr (D : Decls) (name : String) : String × Bool :=
  getOptionNameByStrIn name (CredOptionMap D)

/-- The function `DecideConfigFile`.  The error of `user.Current()` is discarded, so with a
nil user the read of `usr.HomeDir` panics. -/
def DecideConfigFile (D : Decls) (E : Env) (configFile : String) : Outcome String :=
  let configFile := if configFile = "" then D.DefaultConfigFile else configFile
  match E.Current with
  | none => Outcome.panic
  | some usr =>
    if configFile.utf8ByteSize ≥ 2 ∧
        HasPrefix configFile (String.mk ['~', E.PathSeparator]) = true then
      Outcome.ret (Replace1 configFile "~" usr.HomeDir)
    else Outcome.ret configFile

/-- A value of `OptionMapType`, that is of `map[string]interface{}`, as
`readConfigFromFile` stores them: a string or a `map[string]string`. -/
inductive Value where
  | str (s : String)
  | table (t : List (String × String))
  deriving DecidableEq

/-- The type `OptionMapType`. -/
abbrev OptionMapType := List (String × Value)

/-- The loop of `readConfigFromFile` over the options of the Credentials section. -/
def credLoop (D : Decls) : List (String × String) → OptionMapType → OptionMapType
  | [], configMap => configMap
  | (name, option) :: rest, configMap =>
    if (getOptionNameByStr D (TrimSpace name)).2 = true then
      credLoop D rest
        (mapSet configMap (TrimSpace (getOptionNameByStr D (TrimSpace name)).1)
          (Value.str (TrimSpace option)))
    else credLoop D rest configMap

/-- The loop of `readConfigFromFile` over the options of a pair section, filling the
`map[string]string` stored under the section name. -/
def pairLoop : List (String × String) → List (String × String) → List (String × String)
  | [], t => t
  | (bucket, host) :: rest, t => pairLoop rest (mapSet t (TrimSpace bucket) (TrimSpace host))

/-- The body `if section, err := config.Section(sec); err == nil { ... }` of
`readConfigFromFile`: the table of the section is stored under `sec`. -/
def readSection (config : Configuration) (sec : String) (configMap : OptionMapType) :
    OptionMapType :=
  match config.Section sec with
  | Except.ok sect => mapSet configMap sec (Value.table (pairLoop sect.options []))
  | Except.error _ => configMap

/-- The part of `readConfigFromFile` after `configparser.Read`: the map and the error
returned. -/
def readConfig (D : Decls) (config : Configuration) : Option OptionMapType × Option String :=
  match config.Section CREDSection with
  | Except.error err => (none, some err)
  | Except.ok credSection =>
    let configMap := credLoop D credSection.options []
    let configMap := readSection config BucketCnameSection
      (readSection config BucketEndpointSection configMap)
    let configMap := readSection config AkServiceSection configMap
    (some configMap, none)

/-- The part of `readConfigFromFile` after `DecideConfigFile`, for the decided path: the
map and the error returned. -/
def readPath (D : Decls) (E : Env) (path : String) : Option OptionMapType × Option String :=
  match E.Read path with
  | Except.error err => (none, some err)
  | Except.ok config => readConfig D config

/-- The function `readConfigFromFile`: the map and the error returned. -/
def readConfigFromFile (D : Decls) (E : Env) (configFile : String) :
    Outcome (Option OptionMapType × Option String) :=
  match DecideConfigFile D E configFile with
  | Outcome.panic => Outcome.panic
  | Outcome.ret path => Outcome.ret (readPath D E path)

/-- The first check of the loop body of `checkConfig`, for an option of `OptionMap`:
`none` when the loop goes on. -/
def checkInt64 (D : Decls) (name : String) (opval : Value) (option : Option_) :
    Option (Outcome (Option String)) :=
  if option.optionType = D.OptionTypeInt64 then
    match opval with
    | Value.str v =>
      if (ParseInt v).2 ≠ none then
        some (Outcome.ret (some ("error value of option \"" ++ name ++ "\", the value is: "
          ++ v ++ " in config file, which needs int64 type")))
      else none
    | Value.table _ => some Outcome.panic
  else none

/-- The second check of the loop body of `checkConfig`. -/
def checkAlternative (D : Decls) (name : String) (opval : Value) (option : Option_) :
    Option (Outcome (Option String)) :=
  if option.optionType = D.OptionTypeAlternative then
    match opval with
    | Value.str v =>
      if D.FindPosCaseInsen v (SplitSlash option.minVal) = -1 then
        some (Outcome.ret (some ("error value of option \"" ++ name ++ "\", the value is: "
          ++ v ++ " in config file, which is not anyone of " ++ option.minVal)))
      else none
    | Value.table _ => some Outcome.panic
  else none

/-- The function `checkConfig`, the entries visited in the order of the list: the error
returned (`none` is `nil`), or a panic when a type assertion `opval.(string)` fails. -/
def checkConfig (D : Decls) : OptionMapType → Outcome (Option String)
  | [] => Outcome.ret none
  | (name, opval) :: rest =>
    match D.OptionMap name with
    | some option =>
      match checkInt64 D name opval option with
      | some out => out
      | none =>
        match checkAlternative D name opval option with
        | some out => out
        | none => checkConfig D rest
    | none => checkConfig D rest

/-- The function `LoadConfig`: the map and the error returned. -/
def LoadConfig (D : Decls) (E : Env) (configFile : String) :
    Outcome (Option OptionMapType × Option String) :=
  match readConfigFromFile D E configFile with
  | Outcome.panic => Outcome.panic
  | Outcome.ret (_, some err) =>
    Outcome.ret (none, some ("Read config file error: " ++ err ++
      ", please try \"help config\" to set configuration or use \"--config-file\" option"))
  | Outcome.ret (configMap, none) =>
    match checkConfig D (configMap.getD []) with
    | Outcome.panic => Outcome.panic
    | Outcome.ret (some err) => Outcome.ret (none, some err)
    | Outcome.ret none => Outcome.ret (configMap, none)

/-- The path the sentence on `DecideConfigFile` describes: a leading `~` that the path
separator follows is replaced by the home directory, any other path is kept. -/
def expandHome (home : String) (sep : Char) (p : String) : String :=
  match p.data with
  | c :: d :: rest => if c = '~' ∧ d = sep then String.mk (home.data ++ d :: rest) else p
  | _ => p

/-- The keys of `CredOptionMap`. -/
def credKeys (D : Decls) : List String := (CredOptionMap D).map Prod.fst

/-- The three section names stored as keys. -/
def sectionNames : List String := [BucketEndpointSection, BucketCnameSection, AkServiceSection]

/-- What the Go compiler and the use as keys ask of the six option names: they are pairwise
distinct (keys of one map literal), carry no surrounding white space, and none is a section
name. -/
def Decls.WellFormed (D : Decls) : Prop :=
  (credKeys D).Nodup ∧ (∀ k ∈ credKeys D, TrimSpace k = k) ∧ (∀ k ∈ credKeys D, k ∉ sectionNames)

instance (D : Decls) : Decidable D.WellFormed := by
  unfold Decls.WellFormed
  infer_instance

/-- Two options of the Credentials section that do not resolve to the same canonical
option: one of the two names (trimmed) is not recognised, or the canonical names differ. -/
def distinctOptions (D : Decls) (a b : String × String) : Prop :=
  (getOptionNameByStr D (TrimSpace a.1)).2 = true →
    (getOptionNameByStr D (TrimSpace b.1)).2 = true →
      (getOptionNameByStr D (TrimSpace a.1)).1 ≠ (getOptionNameByStr D (TrimSpace b.1)).1

/-- The option `o` is recognised and is stored under the key `k`. -/
def hitsKey (D : Decls) (k : String) (o : String × String) : Bool :=
  (getOptionNameByStr D (TrimSpace o.1)).2 &&
    decide (TrimSpace (getOptionNameByStr D (TrimSpace o.1)).1 = k)

/-- The last option of the list that is stored under the key `k`. -/
def lastHit (D : Decls) (k : String) : List (String × String) → Option (String × String)
  | [] => none
  | o :: rest =>
    match lastHit D k rest with
    | some x => some x
    | none => if hitsKey D k o = true then some o else none

/-- No section name is an option of `OptionMap` whose value `checkConfig` inspects; under
a section name the map holds a table, and `checkConfig` asserts a string. -/
def Decls.SectionsUnchecked (D : Decls) : Prop :=
  ∀ sec ∈ sectionNames, ∀ o, D.OptionMap sec = some o →
    o.optionType ≠ D.OptionTypeInt64 ∧ o.optionType ≠ D.OptionTypeAlternative

/-- The message of the error `LoadConfig` returns when the file cannot be read. -/
def readErrorMessage (err : String) : String :=
  "Read config file error: " ++ err ++
    ", please try \"help config\" to set configuration or use \"--config-file\" option"

/-- No spelling of the first list has the fold key of a spelling of the second. -/
def apartNames (l₁ l₂ : List String) : Prop :=
  ∀ s₁ ∈ l₁, ∀ s₂ ∈ l₂, foldKey s₁ ≠ foldKey s₂

instance : DecidableRel apartNames := fun l₁ l₂ => by
  unfold apartNames
  infer_instance

/-- Two entries of the map with no spelling in common up to case folding. -/
def apartEntries (e₁ e₂ : String × configOption) : Prop :=
  apartNames e₁.2.showNames e₂.2.showNames

/-- The position of the first element of `elemArray` that `strings.EqualFold` equates with
`elem`, and `-1` when there is none. -/
def firstFoldEqual (elem : String) : List String → Int
  | [] => -1
  | v :: rest =>
    if EqualFold v elem then 0
    else if firstFoldEqual elem rest = -1 then -1 else firstFoldEqual elem rest + 1

/-- What `checkConfig` relies on from `FindPosCaseInsen`, a function of package `lib` defined
in another file: it answers `-1` exactly when no element of the array is equal to `elem`
ignoring case. -/
def Decls.FindPosContract (D : Decls) : Prop :=
  ∀ (elem : String) (elemArray : List String),
    D.FindPosCaseInsen elem elemArray = -1 ↔ ∀ v ∈ elemArray, EqualFold v elem = false

/-- A decimal digit. -/
def isDigitRune (c : Char) : Prop := 0x30 ≤ c.toNat ∧ c.toNat ≤ 0x39

instance (c : Char) : Decidable (isDigitRune c) := by
  unfold isDigitRune
  infer_instance

/-- The number that the digits `ds` write in base ten after the number `n`. -/
def digitsVal : List Char → Nat → Nat
  | [], n => n
  | c :: ds, n => digitsVal ds (n * 10 + (c.toNat - 0x30))

/-- A string that writes a signed 64-bit integer in base ten: an optional sign, then one or
more decimal digits and nothing else, the number lying in `[-2^63, 2^63 - 1]`. -/
def decimalInt64 (v : String) : Prop :=
  ∃ ds : List Char, ds ≠ [] ∧ (∀ c ∈ ds, isDigitRune c) ∧
    (((v.data = ds ∨ v.data = '+' :: ds) ∧ digitsVal ds 0 ≤ 2 ^ 63 - 1) ∨
      (v.data = '-' :: ds ∧ digitsVal ds 0 ≤ 2 ^ 63))

/-- What `checkConfig` asks of one entry of the map. -/
def entryOk (D : Decls) (e : String × Value) : Prop :=
  ∀ o, D.OptionMap e.1 = some o →
    (o.optionType = D.OptionTypeInt64 → ∃ v, e.2 = Value.str v ∧ (ParseInt v).2 = none) ∧
    (o.optionType = D.OptionTypeAlternative →
      ∃ v, e.2 = Value.str v ∧ D.FindPosCaseInsen v (SplitSlash o.minVal) ≠ -1)

/-- The entry `e` is what the loop over the Credentials options stores for some recognised
option of `opts`: the canonical name, and the value with surrounding white space removed. -/
def fromCredOption (D : Decls) (opts : List (String × String)) (e : String × Value) : Prop :=
  ∃ n val, (n, val) ∈ opts ∧ (getOptionNameByStr D (TrimSpace n)).2 = true ∧
    e.1 = TrimSpace (getOptionNameByStr D (TrimSpace n)).1 ∧ e.2 = Value.str (TrimSpace val)

/-! ## The probe command

`probe.go` is not among the sources; `probe_test.go` calls it.  The definitions of this
section follow sections 3, 4.1, 4.4, 4.5 and 7 of the specification. -/

/-- Modelled from the spec: the error taxonomy of section 7, for the file `probe.go` that
is not among the sources. -/
inductive ProbeError where
  | ValidationError
  | MissingCredentialError
  | ResolutionError
  | NetworkReachabilityError
  | RemoteRejectionError
  | IntegrityError
  deriving DecidableEq, Repr

/-- Modelled from the spec: the two directions of section 3. -/
inductive Direction where
  | Download
  | Upload
  deriving DecidableEq, Repr

/-- Modelled from the spec: the three upload strategies of section 4.5. -/
inductive UpMode where
  | Normal
  | Append
  | Multipart
  deriving DecidableEq, Repr

/-- Modelled from the spec: the states of the orchestrator of section 4.4. -/
inductive ProbeState where
  | Init
  | Validated
  | Resolved
  | Executing
  | Succeeded
  | Failed
  deriving DecidableEq, Repr

/-- Modelled from the spec: the two kinds of target of section 4.1. -/
inductive TargetKind where
  | URL
  | StoragePath
  deriving DecidableEq, Repr

/-- Modelled from the spec: the normalized descriptor of section 2, component 1: the kind,
the host or bucket, the path or object. -/
structure ResolvedTarget where
  kind : TargetKind
  host : String
  path : String
  deriving DecidableEq, Repr

/-- Modelled from the spec: the fields of `ProbeOptions` (section 3) that validation and
resolution read: the two direction flags, the raw target, the positional arguments, the
bucket and object fields and the upload mode. -/
structure ProbeOptions where
  download : Bool
  upload : Bool
  target : String
  args : List String
  bucketName : String
  object : String
  upMode : String

/-- Modelled from the spec: what one probe attempt leaves (section 3, `ProbeRunState`): the
terminal state, the error, and the number of transfer attempts made on the network. -/
structure ProbeRunState where
  state : ProbeState
  error : Option ProbeError
  attemptCount : Nat
  deriving DecidableEq, Repr

/-- Modelled from the spec: a failure before the state `Executing`; no network call has
occurred (section 4.4). -/
def failedEarly (e : ProbeError) : ProbeRunState := ⟨ProbeState.Failed, some e, 0⟩

/-- Modelled from the spec: exactly one of the two directions is active; both set or
neither set is a validation error (section 3, first invariant). -/
def checkDirection (download upload : Bool) : Except ProbeError Direction :=
  match download, upload with
  | true, false => Except.ok Direction.Download
  | false, true => Except.ok Direction.Upload
  | _, _ => Except.error ProbeError.ValidationError

/-- Modelled from the spec: the upload mode (sections 4.4, 4.5, 8): `normal`, `append` and
`multipart` select a strategy, the empty string selects none and leaves the default, and
any other string is a validation error. -/
def selectUpMode (upMode : String) : Except ProbeError (Option UpMode) :=
  if upMode = "normal" then Except.ok (some UpMode.Normal)
  else if upMode = "append" then Except.ok (some UpMode.Append)
  else if upMode = "multipart" then Except.ok (some UpMode.Multipart)
  else if upMode = "" then Except.ok none
  else Except.error ProbeError.ValidationError

/-- Modelled from the spec: the storage-path prefix of the examples of section 8. -/
def SchemePrefix : String := "oss://"

/-- The runes before the first `/`, and the runes after it. -/
def splitAtSlash : List Char → List Char × List Char
  | [] => ([], [])
  | c :: s => if c = '/' then ([], s) else ((splitAtSlash s).1.cons c, (splitAtSlash s).2)

/-- Modelled from the spec: a storage-path reference `scheme://bucket/object` (section
4.1): the string has the storage-path prefix. -/
def isStoragePath (s : String) : Bool := HasPrefix s SchemePrefix

/-- Modelled from the spec: the bucket segment of a storage-path reference, the text
between the prefix and the next `/`. -/
def bucketSegment (s : String) : String :=
  String.mk (splitAtSlash (s.data.drop SchemePrefix.length)).1

/-- Modelled from the spec: the object of a storage-path reference, the text after the `/`
that ends the bucket segment. -/
def objectSegment (s : String) : String :=
  String.mk (splitAtSlash (s.data.drop SchemePrefix.length)).2

/-- Modelled from the spec: what the positional argument supplies (section 6): nothing, a
local path, or a storage-path reference. -/
inductive FileNameArg where
  | absent
  | localPath (name : String)
  | storagePath (bucket object : String)
  deriving DecidableEq, Repr

/-- Modelled from the spec: `getFileNameArg` reads the first positional argument; a
storage-path reference is parsed and rejected when its bucket segment is empty (section
4.1, and the scenario `oss:////` of section 8). -/
def getFileNameArg (args : List String) : Except ProbeError FileNameArg :=
  match args with
  | [] => Except.ok FileNameArg.absent
  | a :: _ =>
    if isStoragePath a = true then
      if bucketSegment a = "" then Except.error ProbeError.ResolutionError
      else Except.ok (FileNameArg.storagePath (bucketSegment a) (objectSegment a))
    else Except.ok (FileNameArg.localPath a)

/-- Modelled from the spec: the HTTP schemes of a URL target. -/
def httpScheme (s : String) : Option (List Char) :=
  if HasPrefix s "http://" = true then some (s.data.drop 7)
  else if HasPrefix s "https://" = true then some (s.data.drop 8)
  else none

/-- Modelled from the spec: the target resolver of section 4.1.  A raw target with an HTTP
scheme is a URL, rejected when a storage-path argument comes with it (section 3, last
invariant) or when the host or the path is empty; else a raw target or a positional
argument with the storage-path prefix is a storage path, rejected when the bucket segment
is empty; else the bucket and object fields are used, and a missing bucket is rejected. -/
def resolve (opts : ProbeOptions) : Except ProbeError ResolvedTarget :=
  match httpScheme opts.target with
  | some rest =>
    if opts.args.head?.map isStoragePath = some true then
      Except.error ProbeError.ResolutionError
    else if (splitAtSlash rest).1 = [] ∨ (splitAtSlash rest).2 = [] then
      Except.error ProbeError.ResolutionError
    else Except.ok ⟨TargetKind.URL, String.mk (splitAtSlash rest).1,
      String.mk (splitAtSlash rest).2⟩
  | none =>
    if isStoragePath opts.target = true then
      if bucketSegment opts.target = "" then Except.error ProbeError.ResolutionError
      else Except.ok ⟨TargetKind.StoragePath, bucketSegment opts.target,
        objectSegment opts.target⟩
    else
      match getFileNameArg opts.args with
      | Except.error e => Except.error e
      | Except.ok (FileNameArg.storagePath bucket object) =>
        Except.ok ⟨TargetKind.StoragePath, bucket, object⟩
      | Except.ok _ =>
        if opts.bucketName = "" then Except.error ProbeError.ResolutionError
        else Except.ok ⟨TargetKind.StoragePath, opts.bucketName, opts.object⟩

/-- Modelled from the spec: everything the orchestrator does from the state `Resolved` on
(credentials, the transfers on the primary and on the fallback address, the artifacts),
with the network behind it: the run state it ends in. -/
abbrev Executor := Direction → Option UpMode → ResolvedTarget → ProbeRunState

/-- Modelled from the spec: `probeUpload`, the upload branch of the orchestrator: the
upload mode is validated, the target is resolved, then the transfer is executed. -/
def probeUpload (exec : Executor) (opts : ProbeOptions) : ProbeRunState :=
  match selectUpMode opts.upMode with
  | Except.error e => failedEarly e
  | Except.ok mode =>
    match resolve opts with
    | Except.error e => failedEarly e
    | Except.ok tgt => exec Direction.Upload mode tgt

/-- Modelled from the spec: `probeDownload`, the download branch of the orchestrator. -/
def probeDownload (exec : Executor) (opts : ProbeOptions) : ProbeRunState :=
  match resolve opts with
  | Except.error e => failedEarly e
  | Except.ok tgt => exec Direction.Download none tgt

/-- Modelled from the spec: the probe command, the state machine of section 4.4: the
transition `Init → Validated` checks the direction and the upload mode, then the branch
of the direction resolves the target and executes. -/
def runProbe (exec : Executor) (opts : ProbeOptions) : ProbeRunState :=
  match checkDirection opts.download opts.upload with
  | Except.error e => failedEarly e
  | Except.ok dir =>
    match selectUpMode opts.upMode with
    | Except.error e => failedEarly e
    | Except.ok _ =>
      match dir with
      | Direction.Download => probeDownload exec opts
      | Direction.Upload => probeUpload exec opts

/-- An executor for examples: it succeeds after one transfer attempt. -/
def sampleExec : Executor := fun _ _ _ => ⟨ProbeState.Succeeded, none, 1⟩

/-- The values the constants have in package `lib`, for examples. -/
def libDecls : Decls where
  OptionLanguage := "language"
  OptionEndpoint := "endpoint"
  OptionAccessKeyID := "accessKeyID"
  OptionAccessKeySecret := "accessKeySecret"
  OptionSTSToken := "stsToken"
  OptionOutputDir := "outputDir"
  DefaultConfigFile := "~/.ossutilconfig"
  OptionTypeInt64 := 1
  OptionTypeAlternative := 3
  OptionMap := fun name =>
    if name = "language" then some ⟨3, "CH/EN"⟩
    else if name = "retryTimes" then some ⟨1, "1"⟩
    else if name = "endpoint" then some ⟨0, ""⟩
    else none
  FindPosCaseInsen := firstFoldEqual

/-- A home directory and two config files, for examples; `checkConfig` rejects the second
file. -/
def libEnv : Env where
  Current := some ⟨"/home/u"⟩
  PathSeparator := '/'
  Read := fun path =>
    if path = "/home/u/.ossutilconfig" then
      Except.ok
        [ ⟨"Credentials",
            [(" host ", " oss.example.com "), ("region", "x"), ("accessKeyID", "id")]⟩,
          ⟨"Bucket-Endpoint", [("b1 ", "h1")]⟩ ]
    else if path = "/etc/bad" then
      Except.ok [ ⟨"Credentials", [("language", "fr")]⟩ ]
    else Except.error ("open " ++ path ++ ": no such file or directory")

/-- The parsed file of `libEnv`, and the same file with the options of its Credentials
section in the opposite order. -/
def sampleConfig : Configuration :=
  [ ⟨"Credentials", [(" host ", " oss.example.com "), ("region", "x"), ("accessKeyID", "id")]⟩,
    ⟨"Bucket-Endpoint", [("b1 ", "h1")]⟩ ]

def sampleConfigRev : Configuration :=
  [ ⟨"Credentials", [("accessKeyID", "id"), ("region", "x"), (" host ", " oss.example.com ")]⟩,
    ⟨"Bucket-Endpoint", [("b1 ", "h1")]⟩ ]

/-! ## Case folding -/

theorem simpleFold_fixed (r : Nat) (h : 0x80 ≤ r) (h1 : r ≠ 0x212A) (h2 : r ≠ 0x17F) :
    SimpleFold r = r := by
  rw [SimpleFold]
  repeat (rw [if_neg (by omega)])

theorem canon_simpleFold (r : Nat) : canon (SimpleFold r) = canon r := by
  by_cases h : r < 0x80
  · interval_cases r <;> rfl
  · by_cases h1 : r = 0x212A
    · subst h1; rfl
    · by_cases h2 : r = 0x17F
      · subst h2; rfl
      · rw [simpleFold_fixed r (by omega) h1 h2]

theorem simpleFold_orbit (r : Nat) :
    SimpleFold r = r ∨ SimpleFold (SimpleFold r) = r ∨
      SimpleFold (SimpleFold (SimpleFold r)) = r := by
  by_cases h : r < 0x80
  · interval_cases r <;> decide
  · by_cases h1 : r = 0x212A
    · subst h1; decide
    · by_cases h2 : r = 0x17F
      · subst h2; decide
      · exact Or.inl (simpleFold_fixed r (by omega) h1 h2)

theorem foldLoop_exit (sr tr : Nat) :
    ¬ (foldLoop sr tr 3 (SimpleFold sr) ≠ sr ∧ foldLoop sr tr 3 (SimpleFold sr) < tr) := by
  simp only [foldLoop]
  rcases simpleFold_orbit sr with h | h | h
  · simp [h]
  · split_ifs <;> simp_all
  · split_ifs <;> simp_all

theorem foldLoop_canon (sr tr : Nat) : ∀ (fuel r : Nat), canon r = canon sr →
    foldLoop sr tr fuel r = tr → canon sr = canon tr
  | 0, r, h, e => by simp only [foldLoop] at e; rw [← e, h]
  | fuel + 1, r, h, e => by
    simp only [foldLoop] at e
    split_ifs at e with c
    · exact foldLoop_canon sr tr fuel (SimpleFold r) (by rw [canon_simpleFold, h]) e
    · rw [← e, h]

theorem canon_upper (sr : Nat) (h1 : 0x41 ≤ sr) (h2 : sr ≤ 0x5A) : canon (sr + 0x20) = canon sr := by
  interval_cases sr <;> rfl

theorem runeEqualFold_canon_lt (a b : Nat) (hab : a < b) (h : runeEqualFold a b = true) :
    canon a = canon b := by
  unfold runeEqualFold at h
  rw [if_neg (by omega)] at h
  simp only [min_eq_left hab.le, max_eq_right hab.le] at h
  split_ifs at h with c
  · simp only [decide_eq_true_eq] at h
    obtain ⟨h1, h2, h3⟩ := h
    rw [h3, canon_upper a h1 h2]
  · simp only [decide_eq_true_eq] at h
    exact foldLoop_canon a b 3 (SimpleFold a) (canon_simpleFold a) h

theorem runeEqualFold_comm (a b : Nat) : runeEqualFold a b = runeEqualFold b a := by
  unfold runeEqualFold
  by_cases h : a = b
  · subst h; rfl
  · rw [if_neg h, if_neg (Ne.symm h)]
    simp only [min_comm a b, max_comm a b]

theorem runeEqualFold_canon (a b : Nat) (h : runeEqualFold a b = true) : canon a = canon b := by
  rcases Nat.lt_trichotomy a b with hab | hab | hab
  · exact runeEqualFold_canon_lt a b hab h
  · rw [hab]
  · rw [runeEqualFold_comm] at h
    exact (runeEqualFold_canon_lt b a hab h).symm

theorem equalFoldRunes_canon : ∀ (s t : List Nat), equalFoldRunes s t = true →
    s.map canon = t.map canon
  | [], [], _ => rfl
  | [], _ :: _, h => by simp [equalFoldRunes] at h
  | _ :: _, [], h => by simp [equalFoldRunes] at h
  | a :: s, b :: t, h => by
    simp only [equalFoldRunes, Bool.and_eq_true] at h
    simp only [List.map_cons, runeEqualFold_canon a b h.1, equalFoldRunes_canon s t h.2]

theorem EqualFold_foldKey (s t : String) (h : EqualFold s t = true) : foldKey s = foldKey t :=
  equalFoldRunes_canon (runes s) (runes t) h

theorem runeEqualFold_of_lower (a b : Nat) (h : lowerASCII a = lowerASCII b) :
    runeEqualFold a b = true := by
  unfold lowerASCII at h
  unfold runeEqualFold
  by_cases hab : a = b
  · rw [if_pos hab]
  · rw [if_neg hab]
    simp only [Nat.min_def, Nat.max_def]
    split_ifs at h ⊢ <;> first | omega | (simp only [decide_eq_true_eq]; omega)

theorem equalFoldRunes_of_lower : ∀ (s t : List Nat), s.map lowerASCII = t.map lowerASCII →
    equalFoldRunes s t = true
  | [], [], _ => rfl
  | [], _ :: _, h => by simp at h
  | _ :: _, [], h => by simp at h
  | a :: s, b :: t, h => by
    simp only [List.map_cons, List.cons.injEq] at h
    simp only [equalFoldRunes, Bool.and_eq_true]
    exact ⟨runeEqualFold_of_lower a b h.1, equalFoldRunes_of_lower s t h.2⟩

theorem EqualFold_of_sameUpToCase (s t : String) (h : sameUpToCase s t) :
    EqualFold s t = true :=
  equalFoldRunes_of_lower (runes s) (runes t) h

/-! ## `getOptionNameByStr` -/

theorem matchShowNames_iff (name : String) (l : List String) :
    matchShowNames name l = true ↔ ∃ val ∈ l, EqualFold name val = true := by
  induction l with
  | nil => simp [matchShowNames]
  | cons v l ih =>
    simp only [matchShowNames, List.mem_cons, exists_eq_or_imp]
    by_cases h : EqualFold name v = true
    · simp [h]
    · simp [h, ih]

theorem getIn_snd_iff (name : String) (es : List (String × configOption)) :
    (getOptionNameByStrIn name es).2 = true ↔
      ∃ e ∈ es, ∃ val ∈ e.2.showNames, EqualFold name val = true := by
  induction es with
  | nil => simp [getOptionNameByStrIn]
  | cons e es ih =>
    obtain ⟨k, o⟩ := e
    simp only [getOptionNameByStrIn, List.mem_cons, exists_eq_or_imp]
    by_cases h : matchShowNames name o.showNames = true
    · simp only [h, if_true, true_iff]
      exact Or.inl ((matchShowNames_iff name _).1 h)
    · rw [if_neg h, ih]
      rw [matchShowNames_iff] at h
      simp [h]

theorem getIn_key (name : String) (es : List (String × configOption))
    (h : (getOptionNameByStrIn name es).2 = true) :
    ∃ e ∈ es, e.1 = (getOptionNameByStrIn name es).1 ∧
      ∃ val ∈ e.2.showNames, EqualFold name val = true := by
  induction es with
  | nil => simp [getOptionNameByStrIn] at h
  | cons e es ih =>
    obtain ⟨k, o⟩ := e
    simp only [getOptionNameByStrIn] at h ⊢
    by_cases c : matchShowNames name o.showNames = true
    · rw [if_pos c]
      exact ⟨(k, o), List.mem_cons_self _ _, rfl, (matchShowNames_iff name _).1 c⟩
    · rw [if_neg c] at h ⊢
      obtain ⟨e, he, hk, hv⟩ := ih h
      exact ⟨e, List.mem_cons_of_mem _ he, hk, hv⟩

theorem getIn_not_found (name : String) (es : List (String × configOption))
    (h : (getOptionNameByStrIn name es).2 ≠ true) :
    getOptionNameByStrIn name es = ("", false) := by
  induction es with
  | nil => rfl
  | cons e es ih =>
    obtain ⟨k, o⟩ := e
    simp only [getOptionNameByStrIn] at h ⊢
    by_cases c : matchShowNames name o.showNames = true
    · rw [if_pos c] at h; exact absurd rfl h
    · rw [if_neg c] at h ⊢; exact ih h

/-- C1: whatever order the entries of `CredOptionMap` are visited in, `getOptionNameByStr`
answers `(opt, true)` exactly when some spelling of some entry fold-equals the name; then
`opt` is the key of an entry with such a spelling, and otherwise the answer is
`("", false)`.  Every listed spelling is recognised in any letter case (so are `HOST`,
`Access_Key_ID` and `STS-TOKEN`), and `region` and the empty name are rejected. -/
theorem getOptionNameByStr_recognises (D : Decls) (order : List (String × configOption))
    (horder : order.Perm (CredOptionMap D)) (name : String) :
    ((getOptionNameByStrIn name order).2 = true ↔
        ∃ e ∈ CredOptionMap D, ∃ val ∈ e.2.showNames, EqualFold name val = true) ∧
    ((getOptionNameByStrIn name order).2 = true →
        ∃ e ∈ CredOptionMap D, e.1 = (getOptionNameByStrIn name order).1 ∧
          ∃ val ∈ e.2.showNames, EqualFold name val = true) ∧
    ((getOptionNameByStrIn name order).2 ≠ true →
        getOptionNameByStrIn name order = ("", false)) ∧
    (∀ e ∈ CredOptionMap D, ∀ val ∈ e.2.showNames, ∀ n : String, sameUpToCase n val →
        (getOptionNameByStrIn n order).2 = true) ∧
    (getOptionNameByStrIn "HOST" order).2 = true ∧
    (getOptionNameByStrIn "Access_Key_ID" order).2 = true ∧
    (getOptionNameByStrIn "STS-TOKEN" order).2 = true ∧
    getOptionNameByStrIn "region" order = ("", false) ∧
    getOptionNameByStrIn "" order = ("", false) := by
  have key : ∀ n : String, (getOptionNameByStrIn n order).2 = true ↔
      ∃ e ∈ CredOptionMap D, ∃ val ∈ e.2.showNames, EqualFold n val = true := by
    intro n
    rw [getIn_snd_iff]
    constructor
    · rintro ⟨e, he, hv⟩; exact ⟨e, horder.mem_iff.1 he, hv⟩
    · rintro ⟨e, he, hv⟩; exact ⟨e, horder.mem_iff.2 he, hv⟩
  have pos : ∀ n : String, (getOptionNameByStr D n).2 = true →
      (getOptionNameByStrIn n order).2 = true := by
    intro n hn
    exact (key n).2 ((getIn_snd_iff n _).1 hn)
  have neg : ∀ n : String, (getOptionNameByStr D n).2 = false →
      getOptionNameByStrIn n order = ("", false) := by
    intro n hn
    apply getIn_not_found
    intro c
    have := (getIn_snd_iff n _).2 ((key n).1 c)
    rw [getOptionNameByStr] at hn
    rw [hn] at this
    exact Bool.false_ne_true this
  refine ⟨key name, ?_, getIn_not_found name order, ?_, pos _ rfl, pos _ rfl, pos _ rfl,
    neg _ rfl, neg _ rfl⟩
  · intro h
    obtain ⟨e, he, hk, hv⟩ := getIn_key name order h
    exact ⟨e, horder.mem_iff.1 he, hk, hv⟩
  · intro e he val hval n hn
    exact (key n).2 ⟨e, he, val, hval, EqualFold_of_sameUpToCase n val hn⟩

/-- C1, instance: the order of the map literal, the name `hOsT`. -/
theorem getOptionNameByStr_recognises_witness :
    (List.Perm (CredOptionMap libDecls) (CredOptionMap libDecls)) ∧
    ((getOptionNameByStrIn "hOsT" (CredOptionMap libDecls)).2 = true ↔
        ∃ e ∈ CredOptionMap libDecls, ∃ val ∈ e.2.showNames, EqualFold "hOsT" val = true) :=
  ⟨List.Perm.refl _,
    (getOptionNameByStr_recognises libDecls (CredOptionMap libDecls) (List.Perm.refl _)
      "hOsT").1⟩

theorem apartEntries_symm : Symmetric apartEntries := by
  intro e₁ e₂ h s₂ hs₂ s₁ hs₁
  exact fun c => h s₁ hs₁ s₂ hs₂ c.symm

theorem credOptionMap_apart (D : Decls) : (CredOptionMap D).Pairwise apartEntries := by
  have h : List.Pairwise apartNames
      ((CredOptionMap libDecls).map (fun e => e.2.showNames)) := by decide
  have h₂ : List.Pairwise apartNames ((CredOptionMap D).map (fun e => e.2.showNames)) := h
  exact (List.pairwise_map (f := fun e : String × configOption => e.2.showNames)).1 h₂

theorem getIn_eq_of_match (name : String) :
    ∀ (es : List (String × configOption)), es.Pairwise apartEntries →
      ∀ e ∈ es, (∃ val ∈ e.2.showNames, EqualFold name val = true) →
        getOptionNameByStrIn name es = (e.1, true)
  | [], _, e, he, _ => by simp at he
  | (k, o) :: es, hp, e, he, hm => by
    simp only [getOptionNameByStrIn]
    rw [List.pairwise_cons] at hp
    by_cases c : matchShowNames name o.showNames = true
    · rw [if_pos c]
      rcases List.mem_cons.1 he with rfl | he
      · rfl
      · exfalso
        obtain ⟨v₁, hv₁, hf₁⟩ := (matchShowNames_iff name _).1 c
        obtain ⟨v₂, hv₂, hf₂⟩ := hm
        exact hp.1 e he v₁ hv₁ v₂ hv₂
          ((EqualFold_foldKey name v₁ hf₁).symm.trans (EqualFold_foldKey name v₂ hf₂))
    · rw [if_neg c]
      rcases List.mem_cons.1 he with rfl | he
      · exact absurd ((matchShowNames_iff name _).2 hm) c
      · exact getIn_eq_of_match name es hp.2 e he hm

theorem getIn_perm (name : String) (es₁ es₂ : List (String × configOption))
    (hp : es₁.Pairwise apartEntries) (h : es₂.Perm es₁) :
    getOptionNameByStrIn name es₂ = getOptionNameByStrIn name es₁ := by
  have hp₂ : es₂.Pairwise apartEntries := (h.pairwise_iff (fun {_ _} c => apartEntries_symm c)).2 hp
  by_cases c : (getOptionNameByStrIn name es₁).2 = true
  · obtain ⟨e, he, _, hv⟩ := getIn_key name es₁ c
    rw [getIn_eq_of_match name es₁ hp e he hv,
      getIn_eq_of_match name es₂ hp₂ e (h.mem_iff.2 he) hv]
  · have c₂ : (getOptionNameByStrIn name es₂).2 ≠ true := by
      intro c₂
      obtain ⟨e, he, hv⟩ := (getIn_snd_iff name es₂).1 c₂
      exact c ((getIn_snd_iff name es₁).2 ⟨e, h.mem_iff.1 he, hv⟩)
    rw [getIn_not_found name es₁ c, getIn_not_found name es₂ c₂]

theorem getOptionNameByStr_any_order (D : Decls) (order : List (String × configOption))
    (h : order.Perm (CredOptionMap D)) (name : String) :
    getOptionNameByStrIn name order = getOptionNameByStr D name :=
  getIn_perm name (CredOptionMap D) order (credOptionMap_apart D) h

/-- C4: spellings listed under two distinct keys of `CredOptionMap` are never equal under
case folding; and for every name, two visiting orders of the map give `getOptionNameByStr`
the same result. -/
theorem getOptionNameByStr_order_independent (D : Decls) :
    (∀ e₁ ∈ CredOptionMap D, ∀ e₂ ∈ CredOptionMap D, e₁.1 ≠ e₂.1 →
      ∀ s₁ ∈ e₁.2.showNames, ∀ s₂ ∈ e₂.2.showNames, EqualFold s₁ s₂ = false) ∧
    (∀ order₁ order₂ : List (String × configOption),
      order₁.Perm (CredOptionMap D) → order₂.Perm (CredOptionMap D) →
      ∀ name : String,
        getOptionNameByStrIn name order₁ = getOptionNameByStrIn name order₂) := by
  constructor
  · intro e₁ he₁ e₂ he₂ hne s₁ hs₁ s₂ hs₂
    have hap : apartEntries e₁ e₂ :=
      (credOptionMap_apart D).forall apartEntries_symm he₁ he₂ (fun c => hne (by rw [c]))
    cases hf : EqualFold s₁ s₂ with
    | false => rfl
    | true => exact absurd (EqualFold_foldKey s₁ s₂ hf) (hap s₁ hs₁ s₂ hs₂)
  · intro order₁ order₂ h₁ h₂ name
    rw [getOptionNameByStr_any_order D order₁ h₁, getOptionNameByStr_any_order D order₂ h₂]

/-- C4, instance: the map visited in the order of the literal and in the reverse order, the
name `ACCESS-KEY` of the long s spelling `acceſs-key`. -/
theorem getOptionNameByStr_order_independent_witness :
    (CredOptionMap libDecls).Perm (CredOptionMap libDecls) ∧
    (CredOptionMap libDecls).reverse.Perm (CredOptionMap libDecls) ∧
    getOptionNameByStrIn "acceſs-key" (CredOptionMap libDecls) =
      getOptionNameByStrIn "acceſs-key" (CredOptionMap libDecls).reverse :=
  ⟨List.Perm.refl _, List.reverse_perm _,
    (getOptionNameByStr_order_independent libDecls).2 _ _ (List.Perm.refl _)
      (List.reverse_perm _) "acceſs-key"⟩

/-! ## `DecideConfigFile` -/

theorem utf8ByteSize_two_le (c d : Char) (rest : List Char) :
    2 ≤ (String.mk (c :: d :: rest)).utf8ByteSize := by
  have hc := Char.utf8Size_pos c
  have hd := Char.utf8Size_pos d
  simp only [String.utf8ByteSize, String.utf8ByteSize.go]
  omega

theorem expand_eq_expandHome (home : String) (sep : Char) (p : String) :
    (if p.utf8ByteSize ≥ 2 ∧ HasPrefix p (String.mk ['~', sep]) = true then
        Replace1 p "~" home
      else p) = expandHome home sep p := by
  obtain ⟨data⟩ := p
  match data with
  | [] => simp [HasPrefix, hasPrefixRunes, expandHome]
  | [c] => simp [HasPrefix, hasPrefixRunes, expandHome]
  | c :: d :: rest =>
    by_cases h : c = '~' ∧ d = sep
    · obtain ⟨rfl, rfl⟩ := h
      have h2 := utf8ByteSize_two_le '~' d rest
      have hp : HasPrefix (String.mk ('~' :: d :: rest)) (String.mk ['~', d]) = true := by
        simp [HasPrefix, hasPrefixRunes]
      rw [if_pos ⟨h2, hp⟩]
      simp [expandHome, Replace1, replaceFirstRunes, hasPrefixRunes]
    · have hp : HasPrefix (String.mk (c :: d :: rest)) (String.mk ['~', sep]) = false := by
        simp only [HasPrefix, hasPrefixRunes]
        simp only [not_and_or] at h
        rcases h with h | h <;> simp [h]
      simp only [expandHome, hp, if_neg h]
      simp

theorem DecideConfigFile_expand (D : Decls) (E : Env) (usr : User) (hu : E.Current = some usr)
    (f : String) :
    DecideConfigFile D E f = Outcome.ret
      (expandHome usr.HomeDir E.PathSeparator (if f = "" then D.DefaultConfigFile else f)) := by
  unfold DecideConfigFile
  rw [hu]
  simp only []
  rw [← expand_eq_expandHome usr.HomeDir E.PathSeparator _]
  split_ifs <;> rfl

theorem DecideConfigFile_no_user (D : Decls) (E : Env) (hu : E.Current = none) (f : String) :
    DecideConfigFile D E f = Outcome.panic := by
  unfold DecideConfigFile
  rw [hu]

/-- C7: for every file name `f` and home directory `h`, `DecideConfigFile` gives the file
the user named, or the default file when none is named, with the home directory expanded:
a leading `~` that the path separator follows is replaced by the home directory, and any
other path is returned as it is.  With `/` as the separator, `/etc/cfg`, `~`, `~user/cfg`
and `a/~/b` come back unchanged, and in `~/a/~b` only the first `~` is replaced. -/
theorem DecideConfigFile_eq_expandHome (D : Decls) (f h : String) (sep : Char)
    (rd : String → Except String Configuration) :
    DecideConfigFile D ⟨some ⟨h⟩, sep, rd⟩ f =
      Outcome.ret (expandHome h sep (if f = "" then D.DefaultConfigFile else f)) ∧
    DecideConfigFile D ⟨some ⟨h⟩, '/', rd⟩ "/etc/cfg" = Outcome.ret "/etc/cfg" ∧
    DecideConfigFile D ⟨some ⟨h⟩, '/', rd⟩ "~" = Outcome.ret "~" ∧
    DecideConfigFile D ⟨some ⟨h⟩, '/', rd⟩ "~user/cfg" = Outcome.ret "~user/cfg" ∧
    DecideConfigFile D ⟨some ⟨h⟩, '/', rd⟩ "a/~/b" = Outcome.ret "a/~/b" ∧
    DecideConfigFile D ⟨some ⟨h⟩, '/', rd⟩ "~/a/~b" =
      Outcome.ret (String.mk (h.data ++ "/a/~b".data)) ∧
    DecideConfigFile D ⟨some ⟨h⟩, '/', rd⟩ "" =
      Outcome.ret (expandHome h '/' D.DefaultConfigFile) := by
  have key : ∀ (c : Char) (g : String), DecideConfigFile D ⟨some ⟨h⟩, c, rd⟩ g =
      Outcome.ret (expandHome h c (if g = "" then D.DefaultConfigFile else g)) :=
    fun c g => DecideConfigFile_expand D ⟨some ⟨h⟩, c, rd⟩ ⟨h⟩ rfl g
  refine ⟨key sep f, ?_, ?_, ?_, ?_, ?_, ?_⟩ <;> rw [key] <;> simp [expandHome]

/-! ## `strconv.ParseInt` -/

theorem digitsVal_ge : ∀ (ds : List Char) (n : Nat), n ≤ digitsVal ds n
  | [], n => Nat.le_refl n
  | c :: ds, n => by
    have := digitsVal_ge ds (n * 10 + (c.toNat - 0x30))
    simp only [digitsVal]
    omega

theorem parseUintLoop_ok : ∀ (cs : List Char) (n : Nat),
    (∀ c ∈ cs, isDigitRune c) → digitsVal cs n < 2 ^ 64 →
      parseUintLoop cs n = (digitsVal cs n, none)
  | [], n, _, _ => rfl
  | c :: cs, n, hd, hv => by
    have hc : isDigitRune c := hd c (List.mem_cons_self _ _)
    have hge := digitsVal_ge cs (n * 10 + (c.toNat - 0x30))
    simp only [digitsVal] at hv ⊢
    unfold isDigitRune at hc
    simp only [parseUintLoop, maxUint64]
    have hlt : n * 10 + (c.toNat - 0x30) < 2 ^ 64 := by omega
    rw [if_pos hc, Nat.mod_eq_of_lt hlt, if_neg (by omega), if_neg (by omega)]
    exact parseUintLoop_ok cs _ (fun d hd' => hd d (List.mem_cons_of_mem _ hd')) hv

theorem parseUintLoop_err : ∀ (cs : List Char) (n : Nat), n < 2 ^ 64 →
    ¬ ((∀ c ∈ cs, isDigitRune c) ∧ digitsVal cs n < 2 ^ 64) →
      (parseUintLoop cs n).2 = some NumError.ErrSyntax ∨
        parseUintLoop cs n = (maxUint64, some NumError.ErrRange)
  | [], n, hn, h => by
    exfalso
    apply h
    exact ⟨fun c hc => by simp at hc, hn⟩
  | c :: cs, n, hn, h => by
    simp only [parseUintLoop]
    by_cases hc : 0x30 ≤ c.toNat ∧ c.toNat ≤ 0x39
    · rw [if_pos hc]
      by_cases h1 : n ≥ maxUint64 / 10 + 1
      · rw [if_pos h1]; exact Or.inr rfl
      · rw [if_neg h1]
        simp only [maxUint64] at h1 ⊢
        by_cases h2 : n * 10 + (c.toNat - 0x30) < 2 ^ 64
        · rw [Nat.mod_eq_of_lt h2, if_neg (by omega)]
          apply parseUintLoop_err cs _ h2
          intro hh
          apply h
          refine ⟨?_, by simpa only [digitsVal] using hh.2⟩
          intro d hd
          rcases List.mem_cons.1 hd with rfl | hd
          · exact hc
          · exact hh.1 d hd
        · have : (n * 10 + (c.toNat - 0x30)) % 2 ^ 64 < n * 10 := by omega
          rw [if_pos (Or.inl this)]
          exact Or.inr rfl
    · rw [if_neg hc]; exact Or.inl rfl

theorem parseIntSigned_none_iff (neg : Bool) (rest : List Char) :
    (parseIntSigned neg rest).2 = none ↔
      rest ≠ [] ∧ (∀ c ∈ rest, isDigitRune c) ∧
        digitsVal rest 0 ≤ (if neg = true then 2 ^ 63 else 2 ^ 63 - 1) := by
  unfold parseIntSigned
  cases rest with
  | nil => simp [ParseUint]
  | cons c cs =>
    simp only [ParseUint, ne_eq, not_false_eq_true, true_and, reduceCtorEq]
    by_cases hok : (∀ d ∈ c :: cs, isDigitRune d) ∧ digitsVal (c :: cs) 0 < 2 ^ 64
    · rw [parseUintLoop_ok (c :: cs) 0 hok.1 hok.2]
      simp only [reduceCtorEq, if_false]
      cases neg with
      | false =>
        simp only [true_and, Bool.false_eq_true, false_and, if_false]
        by_cases hv : digitsVal (c :: cs) 0 ≥ 2 ^ 63
        · rw [if_pos hv]
          simp only [reduceCtorEq, false_iff, not_and]
          intro _; omega
        · rw [if_neg hv]
          simp only [true_iff]
          exact ⟨hok.1, by omega⟩
      | true =>
        simp only [Bool.true_eq_false, false_and, if_false, true_and, if_true]
        by_cases hv : digitsVal (c :: cs) 0 > 2 ^ 63
        · rw [if_pos hv]
          simp only [reduceCtorEq, false_iff, not_and]
          intro _; omega
        · rw [if_neg hv]
          simp only [true_iff]
          exact ⟨hok.1, by omega⟩
    · have hr : ¬ ((∀ d ∈ c :: cs, isDigitRune d) ∧
          digitsVal (c :: cs) 0 ≤ (if neg = true then 2 ^ 63 else 2 ^ 63 - 1)) := by
        intro hh
        apply hok
        refine ⟨hh.1, ?_⟩
        have := hh.2
        split_ifs at this <;> omega
      simp only [hr, iff_false]
      rcases parseUintLoop_err (c :: cs) 0 (by norm_num) hok with he | he
      · rw [if_pos he, he]; simp
      · rw [he]
        simp only [reduceCtorEq, if_false, maxUint64]
        cases neg <;> simp

theorem ParseInt_none_iff (v : String) : (ParseInt v).2 = none ↔ decimalInt64 v := by
  obtain ⟨data⟩ := v
  unfold ParseInt decimalInt64
  cases data with
  | nil =>
    simp only [reduceCtorEq, false_iff]
    rintro ⟨ds, hne, _, (⟨h | h, _⟩ | ⟨h, _⟩)⟩
    · exact hne h.symm
    · simp at h
    · simp at h
  | cons c cs =>
    simp only [parseIntSigned_none_iff]
    by_cases hp : c = '+'
    · subst hp
      simp only [true_or, if_true, decide_eq_true_eq, show ¬ ('+' = '-') by decide, if_false]
      constructor
      · rintro ⟨h1, h2, h3⟩
        exact ⟨cs, h1, h2, Or.inl ⟨Or.inr rfl, h3⟩⟩
      · rintro ⟨ds, hne, hd, (⟨h | h, hv⟩ | ⟨h, _⟩)⟩
        · exfalso
          have := hd '+' (by rw [← h]; exact List.mem_cons_self _ _)
          revert this; decide
        · simp only [List.cons.injEq, true_and] at h
          subst h; exact ⟨hne, hd, hv⟩
        · simp only [List.cons.injEq] at h
          exact absurd h.1 (by decide)
    · by_cases hm : c = '-'
      · subst hm
        simp only [or_true, if_true, decide_eq_true_eq]
        constructor
        · rintro ⟨h1, h2, h3⟩
          exact ⟨cs, h1, h2, Or.inr ⟨rfl, h3⟩⟩
        · rintro ⟨ds, hne, hd, (⟨h | h, hv⟩ | ⟨h, hv⟩)⟩
          · exfalso
            have := hd '-' (by rw [← h]; exact List.mem_cons_self _ _)
            revert this; decide
          · simp only [List.cons.injEq] at h
            exact absurd h.1 (by decide)
          · simp only [List.cons.injEq, true_and] at h
            subst h; exact ⟨hne, hd, hv⟩
      · simp only [hp, hm, or_self, if_false, decide_eq_true_eq]
        constructor
        · rintro ⟨_, h2, h3⟩
          exact ⟨c :: cs, by simp, h2, Or.inl ⟨Or.inl rfl, h3⟩⟩
        · rintro ⟨ds, hne, hd, (⟨h | h, hv⟩ | ⟨h, hv⟩)⟩
          · subst h; exact ⟨hne, hd, hv⟩
          · simp only [List.cons.injEq] at h
            exact absurd h.1 hp
          · simp only [List.cons.injEq] at h
            exact absurd h.1 hm

/-! ## `checkConfig` -/

theorem checkConfig_cons_ok (D : Decls) (e : String × Value) (rest : OptionMapType)
    (h : entryOk D e) : checkConfig D (e :: rest) = checkConfig D rest := by
  obtain ⟨name, opval⟩ := e
  simp only [checkConfig]
  cases ho : D.OptionMap name with
  | none => rfl
  | some o =>
    obtain ⟨h1, h2⟩ := h o ho
    have c1 : checkInt64 D name opval o = none := by
      unfold checkInt64
      by_cases t : o.optionType = D.OptionTypeInt64
      · obtain ⟨v, rfl, hv⟩ := h1 t
        simp [t, hv]
      · simp [t]
    have c2 : checkAlternative D name opval o = none := by
      unfold checkAlternative
      by_cases t : o.optionType = D.OptionTypeAlternative
      · obtain ⟨v, rfl, hv⟩ := h2 t
        simp [t, hv]
      · simp [t]
    simp only [c1, c2]

theorem checkConfig_cons_bad (D : Decls) (e : String × Value) (rest : OptionMapType)
    (h : ¬ entryOk D e) : checkConfig D (e :: rest) ≠ Outcome.ret none := by
  obtain ⟨name, opval⟩ := e
  simp only [checkConfig]
  cases ho : D.OptionMap name with
  | none => exact absurd (fun o ho' => by simp [ho] at ho') h
  | some o =>
    simp only []
    intro hc
    apply h
    intro o' ho'
    simp only [ho, Option.some.injEq] at ho'
    subst ho'
    by_cases t1 : o.optionType = D.OptionTypeInt64
    · cases opval with
      | table t =>
        simp only [checkInt64, if_pos t1] at hc
        exact absurd hc (by simp)
      | str v =>
        by_cases hp : (ParseInt v).2 = none
        · simp only [checkInt64, if_pos t1, hp, ne_eq, not_true_eq_false, if_false] at hc
          refine ⟨fun _ => ⟨v, rfl, hp⟩, fun t2 => ⟨v, rfl, ?_⟩⟩
          intro hv
          simp only [checkAlternative, if_pos t2, if_pos hv] at hc
          exact absurd hc (by simp)
        · simp only [checkInt64, if_pos t1, ne_eq, hp, not_false_eq_true, if_true] at hc
          exact absurd hc (by simp)
    · simp only [checkInt64, if_neg t1] at hc
      refine ⟨fun c => absurd c t1, fun t2 => ?_⟩
      cases opval with
      | table t =>
        simp only [checkAlternative, if_pos t2] at hc
        exact absurd hc (by simp)
      | str v =>
        refine ⟨v, rfl, ?_⟩
        intro hv
        simp only [checkAlternative, if_pos t2, if_pos hv] at hc
        exact absurd hc (by simp)

theorem checkConfig_accepts_entries (D : Decls) (configMap : OptionMapType) :
    checkConfig D configMap = Outcome.ret none ↔ ∀ e ∈ configMap, entryOk D e := by
  induction configMap with
  | nil => simp [checkConfig]
  | cons e rest ih =>
    by_cases h : entryOk D e
    · rw [checkConfig_cons_ok D e rest h, ih]
      simp [h]
    · constructor
      · intro hc; exact absurd hc (checkConfig_cons_bad D e rest h)
      · intro hall; exact absurd (hall e (List.mem_cons_self _ _)) h

theorem checkConfig_no_panic (D : Decls) : ∀ (configMap : OptionMapType),
    (∀ e ∈ configMap, ∀ o, D.OptionMap e.1 = some o →
      (o.optionType = D.OptionTypeInt64 ∨ o.optionType = D.OptionTypeAlternative) →
        ∃ v, e.2 = Value.str v) →
    checkConfig D configMap ≠ Outcome.panic
  | [], _ => by simp [checkConfig]
  | (name, opval) :: rest, h => by
    have ih := checkConfig_no_panic D rest (fun e he => h e (List.mem_cons_of_mem _ he))
    have hh := h (name, opval) (List.mem_cons_self _ _)
    simp only [checkConfig]
    cases ho : D.OptionMap name with
    | none => exact ih
    | some o =>
      simp only []
      by_cases t1 : o.optionType = D.OptionTypeInt64
      · obtain ⟨v, hv⟩ := hh o ho (Or.inl t1)
        simp only [] at hv
        subst hv
        by_cases hp : (ParseInt v).2 = none
        · simp only [checkInt64, if_pos t1, hp, ne_eq, not_true_eq_false, if_false]
          by_cases t2 : o.optionType = D.OptionTypeAlternative
          · simp only [checkAlternative, if_pos t2]
            split_ifs
            · simp
            · exact ih
          · simp only [checkAlternative, if_neg t2]
            exact ih
        · simp only [checkInt64, if_pos t1, ne_eq, hp, not_false_eq_true, if_true]
          simp
      · simp only [checkInt64, if_neg t1]
        by_cases t2 : o.optionType = D.OptionTypeAlternative
        · obtain ⟨v, hv⟩ := hh o ho (Or.inr t2)
          simp only [] at hv
          subst hv
          simp only [checkAlternative, if_pos t2]
          split_ifs
          · simp
          · exact ih
        · simp only [checkAlternative, if_neg t2]
          exact ih

theorem firstFoldEqual_ge (elem : String) : ∀ l : List String, -1 ≤ firstFoldEqual elem l
  | [] => by simp [firstFoldEqual]
  | v :: rest => by
    have := firstFoldEqual_ge elem rest
    simp only [firstFoldEqual]
    split_ifs <;> omega

theorem firstFoldEqual_contract : libDecls.FindPosContract := by
  intro elem l
  show firstFoldEqual elem l = -1 ↔ _
  induction l with
  | nil => simp [firstFoldEqual]
  | cons v rest ih =>
    have hge := firstFoldEqual_ge elem rest
    simp only [firstFoldEqual, List.mem_cons, forall_eq_or_imp]
    by_cases h : EqualFold v elem = true
    · simp [h]
    · simp only [h, Bool.false_eq_true, if_false]
      rw [← ih]
      simp only [Bool.not_eq_true] at h
      simp only [h, true_and]
      split_ifs with c
      · simp [c]
      · constructor
        · intro h'; omega
        · intro h'; exact absurd h' c

/-- C9: on a config map whose values under the names known to `OptionMap` are strings,
`checkConfig` returns, and it returns `nil` exactly when every entry of an int64 option
passes `strconv.ParseInt(v, 10, 64)` and every entry of an alternative option is equal,
ignoring case, to one of the pieces of the option's `minVal` split on `/`.  `ParseInt`
passes exactly the strings made of an optional sign and decimal digits that write a number
of `[-2^63, 2^63 - 1]`. -/
theorem checkConfig_nil_iff (D : Decls) (hF : D.FindPosContract) (configMap : OptionMapType)
    (hstr : ∀ e ∈ configMap, D.OptionMap e.1 ≠ none → ∃ v, e.2 = Value.str v) :
    checkConfig D configMap ≠ Outcome.panic ∧
    (checkConfig D configMap = Outcome.ret none ↔
      ∀ name v, (name, Value.str v) ∈ configMap → ∀ o, D.OptionMap name = some o →
        (o.optionType = D.OptionTypeInt64 → (ParseInt v).2 = none) ∧
        (o.optionType = D.OptionTypeAlternative →
          ∃ alt ∈ SplitSlash o.minVal, EqualFold alt v = true)) ∧
    (∀ v : String, (ParseInt v).2 = none ↔ decimalInt64 v) ∧
    ¬ decimalInt64 "" ∧ ¬ decimalInt64 " 5" ∧ ¬ decimalInt64 "1.0" ∧
    ¬ decimalInt64 "9223372036854775808" ∧ decimalInt64 "9223372036854775807" ∧
    decimalInt64 "-9223372036854775808" := by
  refine ⟨?_, ?_, ParseInt_none_iff, (ParseInt_none_iff _).not.1 (by decide),
    (ParseInt_none_iff _).not.1 (by decide), (ParseInt_none_iff _).not.1 (by decide),
    (ParseInt_none_iff _).not.1 (by decide), (ParseInt_none_iff _).1 (by decide),
    (ParseInt_none_iff _).1 (by decide)⟩
  · apply checkConfig_no_panic
    intro e he o ho _
    exact hstr e he (by rw [ho]; simp)
  · rw [checkConfig_accepts_entries]
    have key : ∀ (v : String) (o : Option_),
        D.FindPosCaseInsen v (SplitSlash o.minVal) ≠ -1 ↔
          ∃ alt ∈ SplitSlash o.minVal, EqualFold alt v = true := by
      intro v o
      rw [ne_eq, hF]
      simp
    constructor
    · intro h name v hm o ho
      obtain ⟨h1, h2⟩ := h (name, Value.str v) hm o ho
      constructor
      · intro t
        obtain ⟨w, hw, hp⟩ := h1 t
        simp only [Value.str.injEq] at hw
        subst hw; exact hp
      · intro t
        obtain ⟨w, hw, hp⟩ := h2 t
        simp only [Value.str.injEq] at hw
        subst hw; exact (key _ o).1 hp
    · intro h e he o ho
      obtain ⟨name, opval⟩ := e
      obtain ⟨v, hv⟩ := hstr (name, opval) he (by simp only [ho]; simp)
      simp only [] at hv
      subst hv
      obtain ⟨h1, h2⟩ := h name v he o ho
      exact ⟨fun t => ⟨v, rfl, h1 t⟩, fun t => ⟨v, rfl, (key v o).2 (h2 t)⟩⟩

/-- C9, instance: the language `en` and the retry count `12` are accepted. -/
theorem checkConfig_nil_iff_witness :
    libDecls.FindPosContract ∧
    (∀ e ∈ [("language", Value.str "en"), ("retryTimes", Value.str "12")],
      libDecls.OptionMap e.1 ≠ none → ∃ v, e.2 = Value.str v) ∧
    checkConfig libDecls [("language", Value.str "en"), ("retryTimes", Value.str "12")] =
      Outcome.ret none ∧
    checkConfig libDecls [("language", Value.str "en"), ("retryTimes", Value.str "12")] ≠
      Outcome.panic :=
  have hs : ∀ e ∈ [("language", Value.str "en"), ("retryTimes", Value.str "12")],
      libDecls.OptionMap e.1 ≠ none → ∃ v, e.2 = Value.str v := by
    intro e he _
    simp only [List.mem_cons, List.mem_singleton, List.not_mem_nil, or_false] at he
    rcases he with rfl | rfl <;> exact ⟨_, rfl⟩
  ⟨firstFoldEqual_contract, hs, by decide,
    (checkConfig_nil_iff libDecls firstFoldEqual_contract _ hs).1⟩

/-! ## Go maps -/

theorem mem_mapSet {β : Type} : ∀ (m : List (String × β)) (k : String) (v : β)
    (e : String × β), e ∈ mapSet m k v → e = (k, v) ∨ e ∈ m
  | [], k, v, e, h => by
    simp only [mapSet, List.mem_singleton] at h
    exact Or.inl h
  | (k', v') :: rest, k, v, e, h => by
    simp only [mapSet] at h
    split_ifs at h with c
    · rcases List.mem_cons.1 h with h | h
      · exact Or.inl h
      · exact Or.inr (List.mem_cons_of_mem _ h)
    · rcases List.mem_cons.1 h with h | h
      · exact Or.inr (h ▸ List.mem_cons_self _ _)
      · rcases mem_mapSet rest k v e h with h | h
        · exact Or.inl h
        · exact Or.inr (List.mem_cons_of_mem _ h)

theorem mem_mapSet_self {β : Type} : ∀ (m : List (String × β)) (k : String) (v : β),
    (k, v) ∈ mapSet m k v
  | [], k, v => by simp [mapSet]
  | (k', v') :: rest, k, v => by
    simp only [mapSet]
    split_ifs with c
    · exact List.mem_cons_self _ _
    · exact List.mem_cons_of_mem _ (mem_mapSet_self rest k v)

theorem mem_mapSet_of_ne {β : Type} : ∀ (m : List (String × β)) (k : String) (v : β)
    (e : String × β), e ∈ m → e.1 ≠ k → e ∈ mapSet m k v
  | [], _, _, e, h, _ => by simp at h
  | (k', v') :: rest, k, v, e, h, hne => by
    simp only [mapSet]
    rcases List.mem_cons.1 h with h | h
    · subst h
      rw [if_neg hne]
      exact List.mem_cons_self _ _
    · split_ifs with c
      · exact List.mem_cons_of_mem _ h
      · exact List.mem_cons_of_mem _ (mem_mapSet_of_ne rest k v e h hne)

theorem mapGet_mapSet_same {β : Type} : ∀ (m : List (String × β)) (k : String) (v : β),
    mapGet (mapSet m k v) k = some v
  | [], k, v => by simp [mapSet, mapGet]
  | (k', v') :: rest, k, v => by
    simp only [mapSet]
    split_ifs with c
    · simp [mapGet]
    · simp only [mapGet, if_neg c]
      exact mapGet_mapSet_same rest k v

theorem mapGet_mapSet_ne {β : Type} : ∀ (m : List (String × β)) (k : String) (v : β)
    (k₂ : String), k ≠ k₂ → mapGet (mapSet m k v) k₂ = mapGet m k₂
  | [], k, v, k₂, h => by simp [mapSet, mapGet, h]
  | (k', v') :: rest, k, v, k₂, h => by
    simp only [mapSet]
    split_ifs with c
    · subst c
      simp [mapGet, h]
    · simp only [mapGet]
      rw [mapGet_mapSet_ne rest k v k₂ h]

theorem mapGet_eq_none_iff {β : Type} : ∀ (m : List (String × β)) (k : String),
    mapGet m k = none ↔ ∀ v, (k, v) ∉ m
  | [], k => by simp [mapGet]
  | (k', v') :: rest, k => by
    simp only [mapGet]
    split_ifs with c
    · subst c
      simp only [reduceCtorEq, false_iff, not_forall, not_not]
      exact ⟨v', List.mem_cons_self _ _⟩
    · rw [mapGet_eq_none_iff rest k]
      constructor
      · intro h v hv
        rcases List.mem_cons.1 hv with hv | hv
        · simp only [Prod.mk.injEq] at hv
          exact c hv.1.symm
        · exact h v hv
      · intro h v hv
        exact h v (List.mem_cons_of_mem _ hv)

/-! ## `readConfigFromFile` -/

theorem exists_mem_mapSet_iff {β : Type} (m : List (String × β)) (k : String) (v : β)
    (k₂ : String) : (∃ w, (k₂, w) ∈ mapSet m k v) ↔ k₂ = k ∨ ∃ w, (k₂, w) ∈ m := by
  constructor
  · rintro ⟨w, hw⟩
    rcases mem_mapSet m k v _ hw with h | h
    · simp only [Prod.mk.injEq] at h
      exact Or.inl h.1
    · exact Or.inr ⟨w, h⟩
  · rintro (rfl | ⟨w, hw⟩)
    · exact ⟨v, mem_mapSet_self m k₂ v⟩
    · by_cases c : k₂ = k
      · subst c; exact ⟨v, mem_mapSet_self m k₂ v⟩
      · exact ⟨w, mem_mapSet_of_ne m k v (k₂, w) hw c⟩

theorem getOptionNameByStr_mem_keys (D : Decls) (n : String)
    (h : (getOptionNameByStr D n).2 = true) : (getOptionNameByStr D n).1 ∈ credKeys D := by
  obtain ⟨e, he, hk, _⟩ := getIn_key n (CredOptionMap D) h
  unfold credKeys
  rw [getOptionNameByStr, ← hk]
  exact List.mem_map_of_mem _ he

theorem credLoop_entries (D : Decls) (all : List (String × String)) :
    ∀ (opts : List (String × String)) (m : OptionMapType),
      (∀ e ∈ m, fromCredOption D all e) → (∀ o ∈ opts, o ∈ all) →
        ∀ e ∈ credLoop D opts m, fromCredOption D all e
  | [], m, hm, _, e, he => hm e he
  | (name, option) :: rest, m, hm, ho, e, he => by
    simp only [credLoop] at he
    have hrest : ∀ o ∈ rest, o ∈ all := fun o h => ho o (List.mem_cons_of_mem _ h)
    split_ifs at he with c
    · refine credLoop_entries D all rest _ ?_ hrest e he
      intro e' he'
      rcases mem_mapSet m _ _ e' he' with h | h
      · exact ⟨name, option, ho _ (List.mem_cons_self _ _), c, by rw [h], by rw [h]⟩
      · exact hm e' h
    · exact credLoop_entries D all rest m hm hrest e he

theorem readSection_mem (config : Configuration) (sec : String) (m : OptionMapType)
    (e : String × Value) (h : e ∈ readSection config sec m) :
    (∃ t, e = (sec, Value.table t)) ∨ e ∈ m := by
  unfold readSection at h
  cases hs : config.Section sec with
  | error err => rw [hs] at h; exact Or.inr h
  | ok sect =>
    rw [hs] at h
    rcases mem_mapSet m _ _ e h with h | h
    · exact Or.inl ⟨_, h⟩
    · exact Or.inr h

theorem readSection_keys (config : Configuration) (sec : String) (m : OptionMapType)
    (k : String) :
    (∃ w, (k, w) ∈ readSection config sec m) ↔
      (k = sec ∧ ∃ s, config.Section sec = Except.ok s) ∨ ∃ w, (k, w) ∈ m := by
  unfold readSection
  cases hs : config.Section sec with
  | error err => simp
  | ok sect =>
    simp only [exists_mem_mapSet_iff]
    simp

theorem readSection_str (config : Configuration) (sec : String) (m : OptionMapType)
    (k s : String) (h : (k, Value.str s) ∈ readSection config sec m) :
    (k, Value.str s) ∈ m := by
  rcases readSection_mem config sec m _ h with ⟨t, ht⟩ | h
  · simp at ht
  · exact h

theorem readConfig_ok (D : Decls) (config : Configuration) (cred : Section)
    (hc : config.Section CREDSection = Except.ok cred) :
    readConfig D config =
      (some (readSection config AkServiceSection (readSection config BucketCnameSection
        (readSection config BucketEndpointSection (credLoop D cred.options [])))), none) := by
  unfold readConfig
  rw [hc]

theorem readPath_ok (D : Decls) (E : Env) (path : String)
    (configMap : OptionMapType)
    (h : readPath D E path = (some configMap, none)) :
    ∃ config cred, E.Read path = Except.ok config ∧
      config.Section CREDSection = Except.ok cred ∧
      configMap = readSection config AkServiceSection (readSection config BucketCnameSection
        (readSection config BucketEndpointSection (credLoop D cred.options []))) := by
  unfold readPath at h
  cases hr : E.Read path with
  | error err => rw [hr] at h; simp at h
  | ok config =>
    rw [hr] at h
    simp only [] at h
    cases hc : config.Section CREDSection with
    | error err =>
      unfold readConfig at h
      rw [hc] at h
      simp at h
    | ok cred =>
      rw [readConfig_ok D config cred hc] at h
      simp only [Prod.mk.injEq, Option.some.injEq, and_true] at h
      exact ⟨config, cred, rfl, hc, h.symm⟩

theorem credLoop_from_nil (D : Decls) (opts : List (String × String)) :
    ∀ e ∈ credLoop D opts [], fromCredOption D opts e :=
  credLoop_entries D opts opts [] (fun e he => by simp at he) (fun o ho => ho)

theorem fromCredOption_key (D : Decls) (hD : D.WellFormed) (opts : List (String × String))
    (e : String × Value) (h : fromCredOption D opts e) :
    e.1 ∈ credKeys D ∧ ∃ n val, (n, val) ∈ opts ∧
      getOptionNameByStr D (TrimSpace n) = (e.1, true) ∧ e.2 = Value.str (TrimSpace val) := by
  obtain ⟨n, val, hmem, hrec, hk, hv⟩ := h
  have hkey := getOptionNameByStr_mem_keys D _ hrec
  have htrim := hD.2.1 _ hkey
  rw [htrim] at hk
  refine ⟨hk ▸ hkey, n, val, hmem, ?_, hv⟩
  rw [hk]
  exact Prod.ext rfl hrec

theorem readConfigFromFile_ret (D : Decls) (E : Env) (configFile : String)
    (r : Option OptionMapType × Option String)
    (h : readConfigFromFile D E configFile = Outcome.ret r) :
    ∃ path, DecideConfigFile D E configFile = Outcome.ret path ∧ r = readPath D E path := by
  unfold readConfigFromFile at h
  cases hd : DecideConfigFile D E configFile with
  | panic => rw [hd] at h; simp at h
  | ret path =>
    rw [hd] at h
    simp only [Outcome.ret.injEq] at h
    exact ⟨path, rfl, h.symm⟩

theorem readConfigFromFile_of_path (D : Decls) (E : Env) (configFile path : String)
    (h : DecideConfigFile D E configFile = Outcome.ret path) :
    readConfigFromFile D E configFile = Outcome.ret (readPath D E path) := by
  unfold readConfigFromFile
  rw [h]

/-- C5: when `readConfigFromFile` succeeds, every entry of the map is a string under a key
of `CredOptionMap` or a table under one of the three section names; a section name is a key
exactly when the file has that section; and every string entry is the canonical name and
the trimmed value of an option of the Credentials section whose trimmed name is
recognised, so that an unrecognised option leaves no entry. -/
theorem readConfigFromFile_entries (D : Decls) (hD : D.WellFormed) (E : Env)
    (configFile : String) (configMap : OptionMapType)
    (h : readConfigFromFile D E configFile = Outcome.ret (some configMap, none)) :
    ∃ path config cred, DecideConfigFile D E configFile = Outcome.ret path ∧
      E.Read path = Except.ok config ∧
      config.Section CREDSection = Except.ok cred ∧
      (∀ e ∈ configMap, (∃ s, e.2 = Value.str s ∧ e.1 ∈ credKeys D) ∨
        (∃ t, e.2 = Value.table t ∧ e.1 ∈ sectionNames)) ∧
      (∀ sec ∈ sectionNames,
        (∃ v, (sec, v) ∈ configMap) ↔ ∃ s, config.Section sec = Except.ok s) ∧
      (∀ k s, (k, Value.str s) ∈ configMap → ∃ n val, (n, val) ∈ cred.options ∧
        getOptionNameByStr D (TrimSpace n) = (k, true) ∧ s = TrimSpace val) := by
  obtain ⟨path, hpath, hrp⟩ := readConfigFromFile_ret D E configFile _ h
  obtain ⟨config, cred, hr, hc, rfl⟩ := readPath_ok D E path configMap hrp.symm
  refine ⟨path, config, cred, hpath, hr, hc, ?_, ?_, ?_⟩
  · intro e he
    rcases readSection_mem _ _ _ e he with ⟨t, rfl⟩ | he
    · exact Or.inr ⟨t, rfl, by simp [sectionNames]⟩
    rcases readSection_mem _ _ _ e he with ⟨t, rfl⟩ | he
    · exact Or.inr ⟨t, rfl, by simp [sectionNames]⟩
    rcases readSection_mem _ _ _ e he with ⟨t, rfl⟩ | he
    · exact Or.inr ⟨t, rfl, by simp [sectionNames]⟩
    obtain ⟨hk, n, val, _, _, hv⟩ :=
      fromCredOption_key D hD _ e (credLoop_from_nil D cred.options e he)
    exact Or.inl ⟨_, hv, hk⟩
  · intro sec hsec
    have hno : ¬ ∃ w, (sec, w) ∈ credLoop D cred.options [] := by
      rintro ⟨w, hw⟩
      have := (fromCredOption_key D hD _ _ (credLoop_from_nil D cred.options _ hw)).1
      exact hD.2.2 _ this hsec
    simp only [readSection_keys, hno, or_false]
    simp only [sectionNames, List.mem_cons, List.mem_singleton, List.not_mem_nil,
      or_false] at hsec
    have d1 : BucketEndpointSection ≠ BucketCnameSection := by decide
    have d2 : BucketEndpointSection ≠ AkServiceSection := by decide
    have d3 : BucketCnameSection ≠ AkServiceSection := by decide
    rcases hsec with rfl | rfl | rfl
    · simp [d1, d2]
    · simp [d1.symm, d3]
    · simp [d2.symm, d3.symm]
  · intro k s hks
    have h0 := readSection_str _ _ _ k s (readSection_str _ _ _ k s
      (readSection_str _ _ _ k s hks))
    obtain ⟨_, n, val, hmem, hget, hv⟩ :=
      fromCredOption_key D hD _ _ (credLoop_from_nil D cred.options _ h0)
    simp only [Value.str.injEq] at hv
    exact ⟨n, val, hmem, hget, hv⟩

/-- C5, instance: a file with a Credentials section of three options, one of them under an
unknown name, and a `Bucket-Endpoint` section. -/
theorem readConfigFromFile_entries_witness :
    libDecls.WellFormed ∧
    readConfigFromFile libDecls libEnv "" =
      Outcome.ret (some [("endpoint", Value.str "oss.example.com"),
        ("accessKeyID", Value.str "id"),
        ("Bucket-Endpoint", Value.table [("b1", "h1")])], none) ∧
    ∃ path config cred, DecideConfigFile libDecls libEnv "" = Outcome.ret path ∧
      libEnv.Read path = Except.ok config ∧
      config.Section CREDSection = Except.ok cred ∧
      (∀ e ∈ [("endpoint", Value.str "oss.example.com"), ("accessKeyID", Value.str "id"),
          ("Bucket-Endpoint", Value.table [("b1", "h1")])],
        (∃ s, e.2 = Value.str s ∧ e.1 ∈ credKeys libDecls) ∨
        (∃ t, e.2 = Value.table t ∧ e.1 ∈ sectionNames)) :=
  ⟨by decide, by decide,
    let ⟨path, config, cred, h0, h1, h2, h3, _⟩ :=
      readConfigFromFile_entries libDecls (by decide) libEnv "" _ (by decide)
    ⟨path, config, cred, h0, h1, h2, h3⟩⟩

/-! ## `LoadConfig` -/

theorem section_error_iff (config : Configuration) (fqn : String) :
    (∃ err, config.Section fqn = Except.error err) ↔ ∀ s ∈ config, s.fqn ≠ fqn := by
  unfold Configuration.Section
  cases hf : List.find? (fun s => decide (s.fqn = fqn)) config with
  | none =>
    simp only [Except.error.injEq, exists_eq', true_iff]
    intro s hs
    have := List.find?_eq_none.1 hf s hs
    simpa using this
  | some s =>
    simp only [reduceCtorEq, exists_false, false_iff, not_forall]
    have h1 := List.find?_some hf
    have h2 := List.mem_of_find?_eq_some hf
    exact ⟨s, h2, by simpa using h1⟩

theorem readPath_cases (D : Decls) (E : Env) (path : String) :
    (∃ err, readPath D E path = (none, some err) ∧
      (E.Read path = Except.error err ∨
        ∃ config, E.Read path = Except.ok config ∧
          config.Section CREDSection = Except.error err)) ∨
    (∃ m config cred, readPath D E path = (some m, none) ∧
      E.Read path = Except.ok config ∧
      config.Section CREDSection = Except.ok cred) := by
  unfold readPath
  cases hr : E.Read path with
  | error err => exact Or.inl ⟨err, rfl, Or.inl rfl⟩
  | ok config =>
    simp only []
    cases hc : config.Section CREDSection with
    | error err =>
      refine Or.inl ⟨err, ?_, Or.inr ⟨config, rfl, hc⟩⟩
      unfold readConfig
      rw [hc]
    | ok cred =>
      rw [readConfig_ok D config cred hc]
      exact Or.inr ⟨_, config, cred, rfl, rfl, hc⟩

theorem readPath_values (D : Decls) (E : Env) (path : String)
    (configMap : OptionMapType)
    (h : readPath D E path = (some configMap, none)) :
    ∀ e ∈ configMap, (∃ s, e.2 = Value.str s) ∨ e.1 ∈ sectionNames := by
  obtain ⟨config, cred, _, _, rfl⟩ := readPath_ok D E path configMap h
  intro e he
  rcases readSection_mem _ _ _ e he with ⟨t, rfl⟩ | he
  · exact Or.inr (by simp [sectionNames])
  rcases readSection_mem _ _ _ e he with ⟨t, rfl⟩ | he
  · exact Or.inr (by simp [sectionNames])
  rcases readSection_mem _ _ _ e he with ⟨t, rfl⟩ | he
  · exact Or.inr (by simp [sectionNames])
  obtain ⟨_, val, _, _, _, hv⟩ := credLoop_from_nil D cred.options e he
  exact Or.inl ⟨_, hv⟩

theorem LoadConfig_read_error (D : Decls) (E : Env) (configFile err : String)
    (h : readConfigFromFile D E configFile = Outcome.ret (none, some err)) :
    LoadConfig D E configFile = Outcome.ret (none, some (readErrorMessage err)) := by
  unfold LoadConfig
  rw [h]
  rfl

theorem LoadConfig_read_ok (D : Decls) (E : Env) (configFile : String) (m : OptionMapType)
    (h : readConfigFromFile D E configFile = Outcome.ret (some m, none)) :
    LoadConfig D E configFile =
      (match checkConfig D m with
        | Outcome.panic => Outcome.panic
        | Outcome.ret (some err) => Outcome.ret (none, some err)
        | Outcome.ret none => Outcome.ret (some m, none)) := by
  unfold LoadConfig
  rw [h]
  rfl

/-- What `LoadConfig` does when the current user is known: it returns, and it returns
exactly one of a map and an error.  It returns `(nil, err)` exactly when the file cannot be read or parsed,
or has no Credentials section, or `checkConfig` rejects the map read.  A read failure gives
the message `Read config file error: ` followed by the underlying error and the hint; a
validation failure gives the error of `checkConfig` as it is; and on success the map is
the one `readConfigFromFile` produced. -/
theorem LoadConfig_result (D : Decls) (hD : D.SectionsUnchecked) (E : Env) (usr : User)
    (hU : E.Current = some usr) (configFile : String) :
    ∃ path r, DecideConfigFile D E configFile = Outcome.ret path ∧
      LoadConfig D E configFile = Outcome.ret r ∧
      ((r.1 = none ∧ r.2 ≠ none) ∨ (r.1 ≠ none ∧ r.2 = none)) ∧
      (r.2 ≠ none ↔
        ((∃ err, E.Read path = Except.error err) ∨
          (∃ config, E.Read path = Except.ok config ∧ ∀ s ∈ config, s.fqn ≠ CREDSection) ∨
          (∃ m err, readConfigFromFile D E configFile = Outcome.ret (some m, none) ∧
            checkConfig D m = Outcome.ret (some err)))) ∧
      (∀ err, readConfigFromFile D E configFile = Outcome.ret (none, some err) →
        r = (none, some (readErrorMessage err)) ∧
        readErrorMessage err = "Read config file error: " ++ err ++
          ", please try \"help config\" to set configuration or use \"--config-file\" option") ∧
      (∀ m err, readConfigFromFile D E configFile = Outcome.ret (some m, none) →
        checkConfig D m = Outcome.ret (some err) → r = (none, some err)) ∧
      (∀ m, readConfigFromFile D E configFile = Outcome.ret (some m, none) →
        checkConfig D m = Outcome.ret none → r = (some m, none)) := by
  have hdec := DecideConfigFile_expand D E usr hU configFile
  have hrf := readConfigFromFile_of_path D E configFile _ hdec
  generalize expandHome usr.HomeDir E.PathSeparator
    (if configFile = "" then D.DefaultConfigFile else configFile) = path at hdec hrf
  refine ⟨path, ?_⟩
  rcases readPath_cases D E path with
    ⟨err, hrc, hwhy⟩ | ⟨m, config, cred, hrc, hread, hcred⟩
  · rw [hrc] at hrf
    refine ⟨_, hdec, LoadConfig_read_error D E configFile err hrf, Or.inl ⟨rfl, by simp⟩,
      ?_, ?_, ?_, ?_⟩
    · simp only [ne_eq, reduceCtorEq, not_false_eq_true, true_iff]
      rcases hwhy with h | ⟨config, h1, h2⟩
      · exact Or.inl ⟨err, h⟩
      · exact Or.inr (Or.inl ⟨config, h1, (section_error_iff config _).1 ⟨err, h2⟩⟩)
    · intro err' he
      rw [hrf] at he
      simp only [Outcome.ret.injEq, Prod.mk.injEq, Option.some.injEq, true_and] at he
      subst he
      exact ⟨rfl, rfl⟩
    · intro m err' he; rw [hrf] at he; simp at he
    · intro m he; rw [hrf] at he; simp at he
  · rw [hrc] at hrf
    have hnp : checkConfig D m ≠ Outcome.panic := by
      apply checkConfig_no_panic
      intro e he o ho ht
      rcases readPath_values D E path m hrc e he with hs | hs
      · exact hs
      · exfalso
        obtain ⟨h1, h2⟩ := hD _ hs o ho
        rcases ht with ht | ht
        · exact h1 ht
        · exact h2 ht
    have hnot1 : ¬ ∃ err, E.Read path = Except.error err := by
      rintro ⟨err, he⟩; rw [hread] at he; simp at he
    have hnot2 : ¬ ∃ config', E.Read path = Except.ok config' ∧
        ∀ s ∈ config', s.fqn ≠ CREDSection := by
      rintro ⟨config', he, hs⟩
      rw [hread] at he
      simp only [Except.ok.injEq] at he
      subst he
      obtain ⟨err, herr⟩ := (section_error_iff config _).2 hs
      rw [hcred] at herr
      simp at herr
    rw [LoadConfig_read_ok D E configFile m hrf]
    cases hck : checkConfig D m with
    | panic => exact absurd hck hnp
    | ret res =>
      cases res with
      | some err =>
        refine ⟨_, hdec, rfl, Or.inl ⟨rfl, by simp⟩, ?_, ?_, ?_, ?_⟩
        · simp only [ne_eq, reduceCtorEq, not_false_eq_true, true_iff]
          exact Or.inr (Or.inr ⟨m, err, hrf, hck⟩)
        · intro err' he; rw [hrf] at he; simp at he
        · intro m' err' he hc'
          rw [hrf] at he
          simp only [Outcome.ret.injEq, Prod.mk.injEq, Option.some.injEq, and_true] at he
          subst he
          rw [hck] at hc'
          simp only [Outcome.ret.injEq, Option.some.injEq] at hc'
          rw [hc']
        · intro m' he hc'
          rw [hrf] at he
          simp only [Outcome.ret.injEq, Prod.mk.injEq, Option.some.injEq, and_true] at he
          subst he
          rw [hck] at hc'
          simp at hc'
      | none =>
        refine ⟨_, hdec, rfl, Or.inr ⟨by simp, rfl⟩, ?_, ?_, ?_, ?_⟩
        · simp only [ne_eq, not_true_eq_false, hnot1, hnot2, false_or, false_iff]
          rintro ⟨m', err', he, hc'⟩
          rw [hrf] at he
          simp only [Outcome.ret.injEq, Prod.mk.injEq, Option.some.injEq, and_true] at he
          subst he
          rw [hck] at hc'
          simp at hc'
        · intro err' he; rw [hrf] at he; simp at he
        · intro m' err' he hc'
          rw [hrf] at he
          simp only [Outcome.ret.injEq, Prod.mk.injEq, Option.some.injEq, and_true] at he
          subst he
          rw [hck] at hc'
          simp at hc'
        · intro m' he _
          rw [hrf] at he
          simp only [Outcome.ret.injEq, Prod.mk.injEq, Option.some.injEq, and_true] at he
          subst he
          rfl

/-- Instances with a known user: the default file is read and accepted, a file that does not
exist gives the read error, and a file with an unknown language gives the error of
`checkConfig`. -/
theorem LoadConfig_result_witness :
    libDecls.SectionsUnchecked ∧
    libEnv.Current = some ⟨"/home/u"⟩ ∧
    LoadConfig libDecls libEnv "" =
      Outcome.ret (some [("endpoint", Value.str "oss.example.com"),
        ("accessKeyID", Value.str "id"),
        ("Bucket-Endpoint", Value.table [("b1", "h1")])], none) ∧
    LoadConfig libDecls libEnv "/x" =
      Outcome.ret (none, some (readErrorMessage "open /x: no such file or directory")) ∧
    LoadConfig libDecls libEnv "/etc/bad" =
      Outcome.ret (none, some ("error value of option \"language\", the value is: fr in " ++
        "config file, which is not anyone of CH/EN")) ∧
    ∃ r, LoadConfig libDecls libEnv "" = Outcome.ret r ∧
      ((r.1 = none ∧ r.2 ≠ none) ∨ (r.1 ≠ none ∧ r.2 = none)) :=
  have hs : libDecls.SectionsUnchecked := by
    intro sec hsec o ho
    simp only [sectionNames, List.mem_cons, List.mem_singleton, List.not_mem_nil,
      or_false] at hsec
    have e1 : libDecls.OptionMap BucketEndpointSection = none := by decide
    have e2 : libDecls.OptionMap BucketCnameSection = none := by decide
    have e3 : libDecls.OptionMap AkServiceSection = none := by decide
    rcases hsec with rfl | rfl | rfl
    · rw [e1] at ho; exact absurd ho (by simp)
    · rw [e2] at ho; exact absurd ho (by simp)
    · rw [e3] at ho; exact absurd ho (by simp)
  ⟨hs, rfl, by decide, by decide, by decide,
    let ⟨_, r, _, h1, h2, _⟩ := LoadConfig_result libDecls hs libEnv ⟨"/home/u"⟩ rfl ""
    ⟨r, h1, h2⟩⟩

/-- C6: in a process where `user.Current()` gives an error, `LoadConfig` returns neither a
map nor an error: `DecideConfigFile` discards the error and reads `usr.HomeDir` of the nil
user before it looks at the path, so the call panics for every config file name, also for
`/etc/cfg`, which needs no expansion, and for a file that `configparser.Read` would
parse. -/
theorem LoadConfig_panics_without_user (D : Decls) (sep : Char)
    (rd : String → Except String Configuration) (configFile : String) :
    DecideConfigFile D ⟨none, sep, rd⟩ configFile = Outcome.panic ∧
    readConfigFromFile D ⟨none, sep, rd⟩ configFile = Outcome.panic ∧
    LoadConfig D ⟨none, sep, rd⟩ configFile = Outcome.panic ∧
    (¬ ∃ r, LoadConfig D ⟨none, sep, rd⟩ configFile = Outcome.ret r) ∧
    LoadConfig libDecls ⟨none, '/', libEnv.Read⟩ "/etc/cfg" = Outcome.panic ∧
    LoadConfig libDecls ⟨none, '/', libEnv.Read⟩ "/home/u/.ossutilconfig" = Outcome.panic := by
  have hd : ∀ (D' : Decls) (E : Env) (f : String), E.Current = none →
      LoadConfig D' E f = Outcome.panic := by
    intro D' E f hu
    unfold LoadConfig readConfigFromFile
    rw [DecideConfigFile_no_user D' E hu]
  have h3 := hd D ⟨none, sep, rd⟩ configFile rfl
  refine ⟨DecideConfigFile_no_user D _ rfl configFile, ?_, h3, ?_, hd _ _ _ rfl, hd _ _ _ rfl⟩
  · unfold readConfigFromFile
    rw [DecideConfigFile_no_user D _ rfl]
  · rintro ⟨r, hr⟩
    rw [h3] at hr
    exact absurd hr (by simp)

/-! ## The order of the Credentials options -/

theorem credLoop_get (D : Decls) (k : String) :
    ∀ (opts : List (String × String)) (m : OptionMapType),
      mapGet (credLoop D opts m) k =
        (match lastHit D k opts with
          | some o => some (Value.str (TrimSpace o.2))
          | none => mapGet m k)
  | [], m => rfl
  | (name, option) :: rest, m => by
    simp only [credLoop, lastHit]
    by_cases c : (getOptionNameByStr D (TrimSpace name)).2 = true
    · rw [if_pos c, credLoop_get D k rest]
      cases hl : lastHit D k rest with
      | some x => rfl
      | none =>
        simp only []
        by_cases hk : TrimSpace (getOptionNameByStr D (TrimSpace name)).1 = k
        · have hh : hitsKey D k (name, option) = true := by simp [hitsKey, c, hk]
          rw [if_pos hh, ← hk]
          exact mapGet_mapSet_same _ _ _
        · have hh : ¬ hitsKey D k (name, option) = true := by simp [hitsKey, hk]
          rw [if_neg hh]
          exact mapGet_mapSet_ne _ _ _ _ hk
    · rw [if_neg c, credLoop_get D k rest]
      cases hl : lastHit D k rest with
      | some x => rfl
      | none =>
        have hh : ¬ hitsKey D k (name, option) = true := by simp [hitsKey, c]
        simp only [if_neg hh]

theorem lastHit_some (D : Decls) (k : String) :
    ∀ (opts : List (String × String)) (x : String × String),
      lastHit D k opts = some x → x ∈ opts ∧ hitsKey D k x = true
  | [], x, h => by simp [lastHit] at h
  | o :: rest, x, h => by
    simp only [lastHit] at h
    cases hl : lastHit D k rest with
    | some y =>
      rw [hl] at h
      simp only [Option.some.injEq] at h
      subst h
      obtain ⟨h1, h2⟩ := lastHit_some D k rest y hl
      exact ⟨List.mem_cons_of_mem _ h1, h2⟩
    | none =>
      rw [hl] at h
      simp only [] at h
      split_ifs at h with c
      simp only [Option.some.injEq] at h
      subst h
      exact ⟨List.mem_cons_self _ _, c⟩

theorem lastHit_none (D : Decls) (k : String) :
    ∀ (opts : List (String × String)), lastHit D k opts = none →
      ∀ o ∈ opts, hitsKey D k o = false
  | [], _, o, ho => by simp at ho
  | a :: rest, h, o, ho => by
    simp only [lastHit] at h
    cases hl : lastHit D k rest with
    | some y => rw [hl] at h; simp at h
    | none =>
      rw [hl] at h
      simp only [] at h
      rcases List.mem_cons.1 ho with rfl | ho
      · split_ifs at h with c
        simpa using c
      · exact lastHit_none D k rest hl o ho

theorem distinctOptions_symm (D : Decls) : Symmetric (distinctOptions D) := by
  intro a b h hb ha c
  exact h ha hb c.symm

theorem hitsKey_unique (D : Decls) (hD : D.WellFormed) (k : String)
    (opts : List (String × String)) (hdist : opts.Pairwise (distinctOptions D))
    (x y : String × String) (hx : x ∈ opts) (hy : y ∈ opts)
    (hkx : hitsKey D k x = true) (hky : hitsKey D k y = true) : x = y := by
  by_contra hne
  have hd := hdist.forall (distinctOptions_symm D) hx hy hne
  simp only [hitsKey, Bool.and_eq_true, decide_eq_true_eq] at hkx hky
  have tx := hD.2.1 _ (getOptionNameByStr_mem_keys D _ hkx.1)
  have ty := hD.2.1 _ (getOptionNameByStr_mem_keys D _ hky.1)
  apply hd hkx.1 hky.1
  rw [← tx, ← ty, hkx.2, hky.2]

theorem lastHit_perm (D : Decls) (hD : D.WellFormed) (k : String)
    (opts opts' : List (String × String)) (hperm : opts'.Perm opts)
    (hdist : opts.Pairwise (distinctOptions D)) : lastHit D k opts' = lastHit D k opts := by
  cases h : lastHit D k opts with
  | some x =>
    obtain ⟨hx, hkx⟩ := lastHit_some D k opts x h
    cases h' : lastHit D k opts' with
    | some y =>
      obtain ⟨hy, hky⟩ := lastHit_some D k opts' y h'
      rw [hitsKey_unique D hD k opts hdist y x (hperm.mem_iff.1 hy) hx hky hkx]
    | none =>
      have := lastHit_none D k opts' h' x (hperm.mem_iff.2 hx)
      rw [hkx] at this
      exact absurd this (by simp)
  | none =>
    cases h' : lastHit D k opts' with
    | some y =>
      obtain ⟨hy, hky⟩ := lastHit_some D k opts' y h'
      have := lastHit_none D k opts h y (hperm.mem_iff.1 hy)
      rw [hky] at this
      exact absurd this (by simp)
    | none => rfl

theorem credLoop_stores (D : Decls) (hD : D.WellFormed) (opts : List (String × String))
    (hdist : opts.Pairwise (distinctOptions D)) (n v : String) (hmem : (n, v) ∈ opts)
    (hrec : (getOptionNameByStr D (TrimSpace n)).2 = true) :
    mapGet (credLoop D opts []) (getOptionNameByStr D (TrimSpace n)).1 =
      some (Value.str (TrimSpace v)) := by
  have tk := hD.2.1 _ (getOptionNameByStr_mem_keys D _ hrec)
  have hk : hitsKey D (getOptionNameByStr D (TrimSpace n)).1 (n, v) = true := by
    simp [hitsKey, hrec, tk]
  rw [credLoop_get]
  cases h : lastHit D (getOptionNameByStr D (TrimSpace n)).1 opts with
  | some x =>
    obtain ⟨hx, hkx⟩ := lastHit_some D _ opts x h
    rw [hitsKey_unique D hD _ opts hdist x (n, v) hx hmem hkx hk]
  | none =>
    have := lastHit_none D _ opts h (n, v) hmem
    rw [hk] at this
    exact absurd this (by simp)

theorem credLoop_absent (D : Decls) (opts : List (String × String)) (k : String)
    (hno : ∀ n v, (n, v) ∈ opts → ¬ (getOptionNameByStr D (TrimSpace n)).2 = true ∨
      TrimSpace (getOptionNameByStr D (TrimSpace n)).1 ≠ k) :
    mapGet (credLoop D opts []) k = none := by
  rw [credLoop_get]
  cases h : lastHit D k opts with
  | some x =>
    obtain ⟨hx, hkx⟩ := lastHit_some D k opts x h
    simp only [hitsKey, Bool.and_eq_true, decide_eq_true_eq] at hkx
    rcases hno x.1 x.2 hx with c | c
    · exact absurd hkx.1 c
    · exact absurd hkx.2 c
  | none => rfl

theorem mapGet_readSection (config : Configuration) (sec : String) (m : OptionMapType)
    (k : String) (h : sec ≠ k) : mapGet (readSection config sec m) k = mapGet m k := by
  unfold readSection
  cases config.Section sec with
  | error err => rfl
  | ok sect => exact mapGet_mapSet_ne _ _ _ _ h

theorem mapGet_readConfig (D : Decls) (hD : D.WellFormed) (config : Configuration)
    (cred : Section) (hc : config.Section CREDSection = Except.ok cred) :
    ∃ m, readConfig D config = (some m, none) ∧
      ∀ k ∈ credKeys D, mapGet m k = mapGet (credLoop D cred.options []) k := by
  refine ⟨_, readConfig_ok D config cred hc, ?_⟩
  intro k hk
  have hns := hD.2.2 k hk
  simp only [sectionNames, List.mem_cons, List.mem_singleton, List.not_mem_nil, or_false,
    not_or] at hns
  rw [mapGet_readSection _ _ _ _ (Ne.symm hns.2.2), mapGet_readSection _ _ _ _ (Ne.symm hns.2.1),
    mapGet_readSection _ _ _ _ (Ne.symm hns.1)]

theorem credLoop_overwrites (D : Decls) (hD : D.WellFormed) :
    mapGet (credLoop D [("endpoint", "a"), ("host", "b")] []) D.OptionEndpoint =
        some (Value.str "b") ∧
      mapGet (credLoop D [("host", "b"), ("endpoint", "a")] []) D.OptionEndpoint =
        some (Value.str "a") := by
  have hk : TrimSpace D.OptionEndpoint = D.OptionEndpoint :=
    hD.2.1 _ (by simp [credKeys, CredOptionMap])
  have h1 : getOptionNameByStr D (TrimSpace "endpoint") = (D.OptionEndpoint, true) := rfl
  have h2 : getOptionNameByStr D (TrimSpace "host") = (D.OptionEndpoint, true) := rfl
  have ha : TrimSpace "a" = "a" := by decide
  have hb : TrimSpace "b" = "b" := by decide
  simp [credLoop, h1, h2, hk, ha, hb, mapSet, mapGet]

/-- C10: when no two options of the Credentials section resolve to the same canonical
option, the credential entries stored do not depend on the order in which the options are
visited: every recognised option `n = v` gives the entry `canonical(n) -> TrimSpace(v)`,
and a canonical name that no option resolves to has no entry.  With two spellings of one
option, `endpoint` and `host`, the one visited last decides the value. -/
theorem credentials_order_independent (D : Decls) (hD : D.WellFormed)
    (config config' : Configuration) (cred cred' : Section)
    (hc : config.Section CREDSection = Except.ok cred)
    (hc' : config'.Section CREDSection = Except.ok cred')
    (hperm : cred'.options.Perm cred.options)
    (hdist : cred.options.Pairwise (distinctOptions D)) :
    (∀ k, mapGet (credLoop D cred'.options []) k = mapGet (credLoop D cred.options []) k) ∧
    (∃ m m', readConfig D config = (some m, none) ∧ readConfig D config' = (some m', none) ∧
      (∀ k ∈ credKeys D, mapGet m' k = mapGet m k) ∧
      (∀ n v, (n, v) ∈ cred.options → (getOptionNameByStr D (TrimSpace n)).2 = true →
        mapGet m (getOptionNameByStr D (TrimSpace n)).1 = some (Value.str (TrimSpace v)) ∧
        mapGet m' (getOptionNameByStr D (TrimSpace n)).1 = some (Value.str (TrimSpace v))) ∧
      (∀ k ∈ credKeys D,
        (∀ n v, (n, v) ∈ cred.options → getOptionNameByStr D (TrimSpace n) ≠ (k, true)) →
          mapGet m k = none ∧ mapGet m' k = none)) ∧
    (mapGet (credLoop D [("endpoint", "a"), ("host", "b")] []) D.OptionEndpoint =
        some (Value.str "b") ∧
      mapGet (credLoop D [("host", "b"), ("endpoint", "a")] []) D.OptionEndpoint =
        some (Value.str "a")) := by
  have hloop : ∀ k, mapGet (credLoop D cred'.options []) k =
      mapGet (credLoop D cred.options []) k := by
    intro k
    rw [credLoop_get, credLoop_get, lastHit_perm D hD k _ _ hperm hdist]
  obtain ⟨m, hm, hget⟩ := mapGet_readConfig D hD config cred hc
  obtain ⟨m', hm', hget'⟩ := mapGet_readConfig D hD config' cred' hc'
  refine ⟨hloop, ⟨m, m', hm, hm', ?_, ?_, ?_⟩, credLoop_overwrites D hD⟩
  · intro k hk
    rw [hget k hk, hget' k hk, hloop]
  · intro n v hmem hrec
    have hk := getOptionNameByStr_mem_keys D _ hrec
    have := credLoop_stores D hD cred.options hdist n v hmem hrec
    rw [hget _ hk, hget' _ hk, hloop]
    exact ⟨this, this⟩
  · intro k hk hno
    have : mapGet (credLoop D cred.options []) k = none := by
      apply credLoop_absent
      intro n v hmem
      by_cases hrec : (getOptionNameByStr D (TrimSpace n)).2 = true
      · right
        rw [hD.2.1 _ (getOptionNameByStr_mem_keys D _ hrec)]
        intro c
        exact hno n v hmem (Prod.ext c hrec)
      · exact Or.inl hrec
    rw [hget k hk, hget' k hk, hloop]
    exact ⟨this, this⟩

/-- C10, instance: a Credentials section with the options `host`, `region` and
`accessKeyID`, read in this order and in the opposite order. -/
theorem credentials_order_independent_witness :
    libDecls.WellFormed ∧
    sampleConfig.Section CREDSection = Except.ok
      ⟨"Credentials",
        [(" host ", " oss.example.com "), ("region", "x"), ("accessKeyID", "id")]⟩ ∧
    sampleConfigRev.Section CREDSection = Except.ok
      ⟨"Credentials",
        [("accessKeyID", "id"), ("region", "x"), (" host ", " oss.example.com ")]⟩ ∧
    List.Perm [("accessKeyID", "id"), ("region", "x"), (" host ", " oss.example.com ")]
      [(" host ", " oss.example.com "), ("region", "x"), ("accessKeyID", "id")] ∧
    List.Pairwise (distinctOptions libDecls)
      [(" host ", " oss.example.com "), ("region", "x"), ("accessKeyID", "id")] ∧
    (∀ k, mapGet (credLoop libDecls
        [("accessKeyID", "id"), ("region", "x"), (" host ", " oss.example.com ")] []) k =
      mapGet (credLoop libDecls
        [(" host ", " oss.example.com "), ("region", "x"), ("accessKeyID", "id")] []) k) :=
  have hp : List.Perm [("accessKeyID", "id"), ("region", "x"), (" host ", " oss.example.com ")]
      [(" host ", " oss.example.com "), ("region", "x"), ("accessKeyID", "id")] :=
    List.reverse_perm [(" host ", " oss.example.com "), ("region", "x"), ("accessKeyID", "id")]
  have hd : List.Pairwise (distinctOptions libDecls)
      [(" host ", " oss.example.com "), ("region", "x"), ("accessKeyID", "id")] := by
    simp only [List.pairwise_cons, List.mem_cons, List.mem_singleton, List.not_mem_nil,
      forall_eq_or_imp, forall_eq, IsEmpty.forall_iff, implies_true, List.Pairwise.nil,
      and_true, distinctOptions]
    decide
  have h₁ : sampleConfig.Section CREDSection = Except.ok
      ⟨"Credentials",
        [(" host ", " oss.example.com "), ("region", "x"), ("accessKeyID", "id")]⟩ := rfl
  have h₂ : sampleConfigRev.Section CREDSection = Except.ok
      ⟨"Credentials",
        [("accessKeyID", "id"), ("region", "x"), (" host ", " oss.example.com ")]⟩ := rfl
  ⟨by decide, h₁, h₂, hp, hd,
    (credentials_order_independent libDecls (by decide) sampleConfig sampleConfigRev _ _
      h₁ h₂ hp hd).1⟩

/-! ## The probe command -/

theorem selectUpMode_ok_iff (upMode : String) :
    (∃ mode, selectUpMode upMode = Except.ok mode) ↔
      upMode ∈ ["normal", "append", "multipart", ""] := by
  unfold selectUpMode
  simp only [List.mem_cons, List.mem_singleton, List.not_mem_nil, or_false]
  split_ifs with h1 h2 h3 h4 <;> simp [*]

theorem selectUpMode_error (upMode : String)
    (h : upMode ∉ ["normal", "append", "multipart", ""]) :
    selectUpMode upMode = Except.error ProbeError.ValidationError := by
  simp only [List.mem_cons, List.mem_singleton, List.not_mem_nil, or_false, not_or] at h
  unfold selectUpMode
  rw [if_neg h.1, if_neg h.2.1, if_neg h.2.2.1, if_neg h.2.2.2]

/-- C2: a probe request with both direction flags set, and one with neither set, fails
validation: the probe command ends in the state `Failed` with a validation error and
without any transfer attempt, whatever the network would do.  The direction check accepts
a request exactly when one of the two flags is set and the other is not. -/
theorem runProbe_direction_exclusive (exec : Executor) (opts : ProbeOptions) :
    (opts.download = opts.upload →
      runProbe exec opts = ⟨ProbeState.Failed, some ProbeError.ValidationError, 0⟩) ∧
    ((∃ dir, checkDirection opts.download opts.upload = Except.ok dir) ↔
      (opts.download = true ∧ opts.upload = false) ∨
        (opts.download = false ∧ opts.upload = true)) := by
  constructor
  · intro h
    unfold runProbe checkDirection
    rw [h]
    cases opts.upload <;> rfl
  · unfold checkDirection
    cases opts.download <;> cases opts.upload <;> simp

/-- C2, instance: both flags set, neither flag set. -/
theorem runProbe_direction_exclusive_witness :
    runProbe sampleExec ⟨true, true, "", [], "b", "o", ""⟩ =
      ⟨ProbeState.Failed, some ProbeError.ValidationError, 0⟩ ∧
    runProbe sampleExec ⟨false, false, "", [], "b", "o", ""⟩ =
      ⟨ProbeState.Failed, some ProbeError.ValidationError, 0⟩ :=
  ⟨(runProbe_direction_exclusive sampleExec ⟨true, true, "", [], "b", "o", ""⟩).1 rfl,
    (runProbe_direction_exclusive sampleExec ⟨false, false, "", [], "b", "o", ""⟩).1 rfl⟩

/-- C3: with an upload mode that is none of `normal`, `append`, `multipart` and the empty
string, `probeUpload` ends in the state `Failed` with a validation error and without any
transfer attempt, so no default mode is used; so does the probe command.  The four strings
are the ones the selection accepts. -/
theorem probeUpload_unknown_upMode (exec : Executor) (opts : ProbeOptions)
    (h : opts.upMode ∉ ["normal", "append", "multipart", ""]) :
    probeUpload exec opts = ⟨ProbeState.Failed, some ProbeError.ValidationError, 0⟩ ∧
    runProbe exec opts = ⟨ProbeState.Failed, some ProbeError.ValidationError, 0⟩ ∧
    (∀ upMode : String, (∃ mode, selectUpMode upMode = Except.ok mode) ↔
      upMode ∈ ["normal", "append", "multipart", ""]) := by
  have he := selectUpMode_error opts.upMode h
  refine ⟨?_, ?_, selectUpMode_ok_iff⟩
  · unfold probeUpload
    rw [he]
    rfl
  · unfold runProbe checkDirection
    rw [he]
    cases opts.download <;> cases opts.upload <;> rfl

/-- C3, instance: the upload mode `unkown` of the test. -/
theorem probeUpload_unknown_upMode_witness :
    "unkown" ∉ ["normal", "append", "multipart", ""] ∧
    probeUpload sampleExec ⟨false, true, "", [], "b", "o", "unkown"⟩ =
      ⟨ProbeState.Failed, some ProbeError.ValidationError, 0⟩ :=
  ⟨by decide,
    (probeUpload_unknown_upMode sampleExec ⟨false, true, "", [], "b", "o", "unkown"⟩
      (by decide)).1⟩

/-- C8: for a positional argument that is a storage-path reference with an empty bucket
segment, `getFileNameArg` returns an error; resolution of a request whose target comes from
that argument fails with it, and both branches of the orchestrator end in the state
`Failed` without any transfer attempt.  The argument `oss:////` is such a reference. -/
theorem getFileNameArg_empty_bucket (arg : String) (rest : List String)
    (hs : isStoragePath arg = true) (hb : bucketSegment arg = "") :
    getFileNameArg (arg :: rest) = Except.error ProbeError.ResolutionError ∧
    (∀ (exec : Executor) (opts : ProbeOptions), opts.args = arg :: rest →
      httpScheme opts.target = none → isStoragePath opts.target = false →
        resolve opts = Except.error ProbeError.ResolutionError ∧
        probeDownload exec opts = ⟨ProbeState.Failed, some ProbeError.ResolutionError, 0⟩ ∧
        (selectUpMode opts.upMode = Except.ok none →
          probeUpload exec opts =
            ⟨ProbeState.Failed, some ProbeError.ResolutionError, 0⟩)) ∧
    (isStoragePath "oss:////" = true ∧ bucketSegment "oss:////" = "" ∧
      getFileNameArg ["oss:////"] = Except.error ProbeError.ResolutionError) := by
  have hg : getFileNameArg (arg :: rest) = Except.error ProbeError.ResolutionError := by
    simp only [getFileNameArg, hs, hb, if_true]
  refine ⟨hg, ?_, by decide, by decide, rfl⟩
  intro exec opts ha ht hn
  have hr : resolve opts = Except.error ProbeError.ResolutionError := by
    unfold resolve
    rw [ht]
    simp only [hn, Bool.false_eq_true, if_false, ha, hg]
  refine ⟨hr, ?_, ?_⟩
  · unfold probeDownload
    rw [hr]
    rfl
  · intro hm
    unfold probeUpload
    rw [hm]
    simp only [hr]
    rfl

/-- C8, instance: the argument `oss:////` of the test. -/
theorem getFileNameArg_empty_bucket_witness :
    isStoragePath "oss:////" = true ∧ bucketSegment "oss:////" = "" ∧
    getFileNameArg ["oss:////"] = Except.error ProbeError.ResolutionError :=
  ⟨by decide, by decide,
    (getFileNameArg_empty_bucket "oss:////" [] (by decide) (by decide)).1⟩

end Ossutil
